import Mathlib

/-!
Shallow embedding of the big-ssdb Raft core (src/src/raft/Node.go and
src/src/raft/Storage.go) together with the wire codecs found in
src/unnamed/part_000 (Entry) and src/unnamed/part_002 (Message).

Go `int32`/`int64` values are modelled as `Int` (no arithmetic in the claims
approaches the word size), Go maps as association lists, Go strings as `String`
(and as `List Char` for the wire-format codecs, where character-level reasoning
is needed).  Goroutines, channels, logging and `Fsync` do not change the
modelled state and are omitted; `log.Fatal` and nil-pointer dereferences are
modelled by an `Option` result (`none` = the process dies).
-/

namespace raft

/-- Entry type tags used by Node.go (EntryTypeAddMember, EntryTypeDelMember,
EntryTypeNoop, EntryTypePing, EntryTypeData).  The current Entry.go is absent
from src; the tag set follows the spec data model and the Node.go call sites. -/
inductive EntryType where
  | addMember
  | delMember
  | noop
  | ping
  | dataEntry
deriving DecidableEq, Repr

/-- Log entry record: term, index, commit snapshot, type tag, opaque payload
(spec data model; matches every Node.go/Storage.go use site). -/
structure Entry where
  term : Int
  index : Int
  commit : Int
  type : EntryType
  data : String
deriving DecidableEq, Repr

/-- Node roles (RoleLeader, RoleFollower, RoleCandidate in Node.go). -/
inductive RoleType where
  | leader
  | follower
  | candidate
deriving DecidableEq, Repr

/-- Per-peer replication bookkeeping (Member.go is absent from src; fields are
modelled from the spec §3 Member record and the Node.go use sites). -/
structure Member where
  id : String
  addr : String
  role : RoleType
  nextIndex : Int
  matchIndex : Int
  sendWindow : Int
  heartbeatTimer : Int
  replicateTimer : Int
  receiveTimeout : Int
deriving DecidableEq, Repr

/-- Modelled from the spec: State.go is absent from src.  Persisted Raft
metadata { term, voteFor, members } (§3), members as an id→addr list. -/
structure State where
  term : Int
  voteFor : String
  members : List (String × String)
deriving DecidableEq, Repr

/-- The flat key/value Db behind Storage, split by key shape: the `@State`
slot and the `log#<index>` slots (the key format `log#%03d` is injective on
indexes, so log keys are modelled by their index). -/
structure Db where
  state : Option State
  logs : List (Int × Entry)
deriving DecidableEq, Repr

/-- Association-list lookup (Go map read `entries[index]`). -/
def alookup (l : List (Int × Entry)) (i : Int) : Option Entry :=
  match l with
  | [] => none
  | p :: rest => if p.1 = i then some p.2 else alookup rest i

/-- Association-list overwrite-or-insert (Go map write `entries[index] = ent`). -/
def aset (l : List (Int × Entry)) (i : Int) (e : Entry) : List (Int × Entry) :=
  match l with
  | [] => [(i, e)]
  | p :: rest => if p.1 = i then (i, e) :: rest else p :: aset rest i e

/-- Storage (Storage.go struct): indices discovered from the log, commit
progress, persisted state, the entry map and the backing Db. -/
structure Storage where
  firstIndex : Int
  lastTerm : Int
  lastIndex : Int
  commitIndex : Int
  state : State
  entries : List (Int × Entry)
  db : Db
deriving DecidableEq, Repr

/-- Node (Node.go struct): identity, role, persisted Raft state mirror,
apply progress and the election timer.  The queues and mutex carry no state
relevant to the claims. -/
structure Node where
  id : String
  addr : String
  role : RoleType
  term : Int
  voteFor : String
  members : List Member
  lastApplied : Int
  electionTimer : Int
deriving DecidableEq, Repr

/-- The combined mutable state a Node owns: itself plus its Storage
(Storage holds a back-reference to Node in the source; here the pair is
passed explicitly). -/
structure Raft where
  node : Node
  store : Storage
deriving DecidableEq, Repr

/-- Storage.GetEntry: the entry at `index` or nil. -/
def getEntry (st : Storage) (i : Int) : Option Entry :=
  alookup st.entries i

/-- Db write of one log slot (db.Set with key `log#%03d`). -/
def dbSetLog (db : Db) (i : Int) (e : Entry) : Db :=
  { db with logs := aset db.logs i e }

/-- The contiguous-advance loop inside Storage.WriteEntry: walk forward from
`lastIndex + 1` persisting every contiguous entry and advancing
`lastIndex`/`lastTerm`.  The fuel bounds the walk by the size of the entry
map, which the Go loop can never exceed. -/
def advanceLoop : Nat → Storage → Storage
  | 0, st => st
  | fuel + 1, st =>
    match getEntry st (st.lastIndex + 1) with
    | none => st
    | some ent =>
        advanceLoop fuel
          { st with lastTerm := ent.term, lastIndex := ent.index,
                    db := dbSetLog st.db ent.index ent }

/-- Storage.WriteEntry: reject `ent.index ≤ commitIndex`; insert into the
entry map, lower `firstIndex`, then persist the contiguous run. -/
def writeEntry (st : Storage) (ent : Entry) : Storage :=
  if ent.index ≤ st.commitIndex then st
  else
    let st1 : Storage :=
      { st with entries := aset st.entries ent.index ent,
                firstIndex := min st.firstIndex ent.index }
    advanceLoop (st1.entries.length + 1) st1

/-- Node.addMember: ignore self and known ids, otherwise insert a freshly
reset member.  NewMember/Member.Reset are modelled from the spec §4.3: zero
timers, `nextIndex := lastIndex + 1`, `matchIndex := 0`, role follower. -/
def nodeAddMember (n : Node) (lastIndex : Int) (nodeId nodeAddr : String) : Node :=
  if nodeId = n.id then n
  else if (n.members.filter (fun m => m.id = nodeId)).isEmpty then
    { n with members := n.members ++
        [{ id := nodeId, addr := nodeAddr, role := RoleType.follower,
           nextIndex := lastIndex + 1, matchIndex := 0, sendWindow := 3,
           heartbeatTimer := 0, replicateTimer := 0, receiveTimeout := 0 }] }
  else n

/-- Node.removeMember: ignore self, delete the member from the peer table. -/
def nodeRemoveMember (n : Node) (nodeId : String) : Node :=
  if nodeId = n.id then n
  else { n with members := n.members.filter (fun m => ¬ m.id = nodeId) }

/-- Storage.SaveState: rebuild the persisted State from the node (term, vote,
self plus peers) and write it under `@State`; the Fsync that follows changes
no modelled state. -/
def saveState (r : Raft) : Raft :=
  let st : State :=
    { term := r.node.term, voteFor := r.node.voteFor,
      members := (r.node.id, r.node.addr) :: r.node.members.map (fun m => (m.id, m.addr)) }
  { r with store := { r.store with state := st, db := { r.store.db with state := some st } } }

/-- Node.ApplyEntry: record `lastApplied := ent.index`; AddMember/DelMember
entries mutate the peer table and rewrite State. -/
def applyEntryNode (r : Raft) (ent : Entry) : Raft :=
  let n1 : Node := { r.node with lastApplied := ent.index }
  let r1 : Raft := { r with node := n1 }
  match ent.type with
  | EntryType.addMember =>
      let ps := ent.data.splitOn " "
      if h : ps.length = 2 then
        saveState { r1 with node := nodeAddMember n1 r1.store.lastIndex (ps.get ⟨0, by omega⟩) (ps.get ⟨1, by omega⟩) }
      else r1
  | EntryType.delMember =>
      saveState { r1 with node := nodeRemoveMember n1 ent.data }
  | _ => r1

/-- The Raft-side loop of Storage.ApplyEntries: apply entries at
`idx, idx+1, …` for `k` steps; a missing entry is `log.Fatalf` (`none`). -/
def applyEntriesLoop : Nat → Int → Raft → Option Raft
  | 0, _, r => some r
  | k + 1, idx, r =>
    match getEntry r.store idx with
    | none => none
    | some ent => applyEntriesLoop k (idx + 1) (applyEntryNode r ent)

/-- Storage.ApplyEntries: advance Node.lastApplied through
`[lastApplied+1 .. commitIndex]`.  The Service is not attached (nil), as in
NewStorage, so the Service loop is absent. -/
def applyEntries (r : Raft) : Option Raft :=
  applyEntriesLoop (r.store.commitIndex - r.node.lastApplied).toNat
    (r.node.lastApplied + 1) r

/-- Storage.CommitEntry: clamp to `lastIndex`; no-op at or below the current
commit; otherwise set `commitIndex`, Fsync, then ApplyEntries. -/
def commitEntry (r : Raft) (idx : Int) : Option Raft :=
  let c := min idx r.store.lastIndex
  if c ≤ r.store.commitIndex then some r
  else applyEntries { r with store := { r.store with commitIndex := c } }

/-- Storage.AppendEntry: allocate the next index in the node's term stamped
with the current commit, write it, return it (the channel pulse carries no
state). -/
def appendEntry (r : Raft) (type : EntryType) (data : String) : Raft × Entry :=
  let ent : Entry :=
    { type := type, term := r.node.term, index := r.store.lastIndex + 1,
      commit := r.store.commitIndex, data := data }
  ({ r with store := writeEntry r.store ent }, ent)

/-- Message type tags of the current Message.go (absent from src; the tag set
follows the spec §6 and the Node.go dispatch). -/
inductive MessageType where
  | preVote
  | preVoteAck
  | requestVote
  | requestVoteAck
  | appendEntry
  | appendEntryAck
  | installSnapshot
  | noneMsg
deriving DecidableEq, Repr

/-- Snapshot artifact (Snapshot.go is absent from src; fields are modelled
from the spec §3: state, lastTerm, lastIndex and an entry suffix). -/
structure Snapshot where
  state : State
  lastTerm : Int
  lastIndex : Int
  entries : List Entry
deriving DecidableEq, Repr

/-- Payload of a wire message.  In the source `Message.Data` is a string that
carries an encoded Entry (AppendEntry), an encoded Snapshot (InstallSnapshot)
or a literal token such as `true`/`false`/`grant`/`reject`; the structured
forms stand for their encodings here. -/
inductive MsgData where
  | str (s : String)
  | ent (e : Entry)
  | snap (sn : Snapshot)
deriving DecidableEq, Repr

/-- Wire frame between nodes, as used by Node.go:
type, src, dst, term, prevTerm, prevIndex, data (spec §6). -/
structure Message where
  type : MessageType
  src : String
  dst : String
  term : Int
  prevTerm : Int
  prevIndex : Int
  data : MsgData
deriving DecidableEq, Repr

/-- NewAppendEntryAck(dst, success): data is `true` or `false`. -/
def newAppendEntryAck (dst : String) (success : Bool) : Message :=
  { type := MessageType.appendEntryAck, src := "", dst := dst, term := 0,
    prevTerm := 0, prevIndex := 0,
    data := MsgData.str (if success then "true" else "false") }

/-- NewRequestVoteAck(dst, grant): data is `grant` or `reject`, the tokens
counted by checkVoteResult. -/
def newRequestVoteAck (dst : String) (grant : Bool) : Message :=
  { type := MessageType.requestVoteAck, src := "", dst := dst, term := 0,
    prevTerm := 0, prevIndex := 0,
    data := MsgData.str (if grant then "grant" else "reject") }

/-- NewAppendEntryMsg(dst, ent, prev): carries the entry, with prevTerm and
prevIndex taken from `prev` when present (zero otherwise, in which case
node.send fills in the storage tail). -/
def newAppendEntryMsg (dst : String) (ent : Entry) (prev : Option Entry) : Message :=
  { type := MessageType.appendEntry, src := "", dst := dst, term := 0,
    prevTerm := (prev.map Entry.term).getD 0,
    prevIndex := (prev.map Entry.index).getD 0,
    data := MsgData.ent ent }

/-- NewInstallSnapshotMsg(dst, encoded snapshot). -/
def newInstallSnapshotMsg (dst : String) (sn : Snapshot) : Message :=
  { type := MessageType.installSnapshot, src := "", dst := dst, term := 0,
    prevTerm := 0, prevIndex := 0, data := MsgData.snap sn }

/-- NewPingEntry(commitIndex): a heartbeat-only entry with zero term/index
(modelled after NewHeartbeatEntry in the older Entry source). -/
def newPingEntry (commitIndex : Int) : Entry :=
  { term := 0, index := 0, commit := commitIndex, type := EntryType.ping, data := "" }

/-- node.send: stamp src and term; when the message has no prev fields
(prevTerm = 0), fill them with the storage tail. -/
def send (r : Raft) (msg : Message) : Message :=
  let msg1 : Message := { msg with src := r.node.id, term := r.node.term }
  if msg1.prevTerm = 0 then
    { msg1 with prevTerm := r.store.lastTerm, prevIndex := r.store.lastIndex }
  else msg1

/-- Look up a member of the peer table by id (Go `node.Members[msg.Src]`). -/
def memberById (n : Node) (nodeId : String) : Option Member :=
  n.members.find? (fun m => m.id = nodeId)

/-- Write back a mutated member record: in Go the member is a pointer into
the map, so an update is visible exactly when the id is still in the table. -/
def setMember (n : Node) (m : Member) : Node :=
  { n with members := n.members.map (fun x => if x.id = m.id then m else x) }

/-- Same write-back lifted to the combined state. -/
def setMemberR (r : Raft) (m : Member) : Raft :=
  { r with node := setMember r.node m }

/-- Handler output: the new combined state, the messages queued on send_c, and
the (ghost) list of indexes passed to Storage.CommitEntry. -/
structure StepOut where
  raft : Raft
  sent : List Message
  commits : List Int
deriving DecidableEq, Repr

/-- node.pingMember: zero the heartbeat timer and send an AppendEntry whose
entry is a Ping carrying the current commitIndex, with prev = entry@lastIndex. -/
def pingMember (r : Raft) (m : Member) : Raft × Message :=
  let m1 : Member := { m with heartbeatTimer := 0 }
  let r1 : Raft := setMemberR r m1
  let ent := newPingEntry r1.store.commitIndex
  let prev := getEntry r1.store r1.store.lastIndex
  (r1, send r1 (newAppendEntryMsg m.id ent prev))

/-- One send step of node.replicateMember: stamp the entry at nextIndex with
the current commit, send it with prev = entry@(nextIndex−1), advance
nextIndex, zero the heartbeat timer.  The stamping mutates the stored entry
in place (GetEntry returns a pointer in Go). -/
def replicateLoop : Nat → Raft → Member → Int → List Message → Raft × Member × List Message
  | 0, r, m, _, acc => (r, m, acc.reverse)
  | fuel + 1, r, m, maxIndex, acc =>
    if m.nextIndex ≤ maxIndex then
      match getEntry r.store m.nextIndex with
      | none => (r, m, acc.reverse)
      | some ent0 =>
        let ent : Entry := { ent0 with commit := r.store.commitIndex }
        let r1 : Raft := { r with store := { r.store with entries := aset r.store.entries m.nextIndex ent } }
        let prev := getEntry r1.store (m.nextIndex - 1)
        let out := send r1 (newAppendEntryMsg m.id ent prev)
        let m1 : Member := { m with nextIndex := m.nextIndex + 1, heartbeatTimer := 0 }
        let r2 : Raft := setMemberR r1 m1
        replicateLoop fuel r2 m1 maxIndex (out :: acc)
    else (r, m, acc.reverse)

/-- node.replicateMember: stop-and-wait when the send window is full,
otherwise zero the replicate timer and stream entries from nextIndex up to
max(nextIndex, matchIndex + sendWindow). -/
def replicateMember (r : Raft) (m : Member) : Raft × List Message :=
  if m.matchIndex ≠ 0 ∧ m.nextIndex - m.matchIndex > m.sendWindow then (r, [])
  else
    let m1 : Member := { m with replicateTimer := 0 }
    let r1 : Raft := setMemberR r m1
    let maxIndex := max m1.nextIndex (m1.matchIndex + m1.sendWindow)
    let fuel := (maxIndex - m1.nextIndex + 1).toNat
    let (r2, _, msgs) := replicateLoop fuel r1 m1 maxIndex []
    (r2, msgs)

/-- node.resetMember: Member.Reset (spec §4.3: zero the timers,
`nextIndex := lastIndex + 1`, `matchIndex := 0`) followed by
`m.Role = RoleFollower`. -/
def resetMember (m : Member) (lastIndex : Int) : Member :=
  { m with heartbeatTimer := 0, replicateTimer := 0, receiveTimeout := 0,
           nextIndex := lastIndex + 1, matchIndex := 0,
           role := RoleType.follower }

/-- node.pingAllMember: heartbeat every peer in table order. -/
def pingList : List Member → Raft → Raft × List Message
  | [], r => (r, [])
  | m :: ms, r =>
    let (r1, msg) := pingMember r m
    let (r2, msgs) := pingList ms r1
    (r2, msg :: msgs)

/-- node.becomeFollower: no-op when already a follower, otherwise revert the
role, clear the election timer and reset every peer. -/
def becomeFollower (r : Raft) : Raft :=
  if r.node.role = RoleType.follower then r
  else
    { r with node :=
        { r.node with role := RoleType.follower, electionTimer := 0,
                      members := r.node.members.map (fun m => resetMember m r.store.lastIndex) } }

/-- node.becomeLeader: take the leader role, reset all peers and then set
every peer's nextIndex to storage.lastIndex; append a Noop in the new term if
the tail is uncommitted (or the log empty), otherwise heartbeat everybody. -/
def becomeLeader (r : Raft) : Raft × List Message :=
  let n1 : Node :=
    { r.node with role := RoleType.leader, electionTimer := 0,
                  members := r.node.members.map (fun m =>
                    { resetMember m r.store.lastIndex with nextIndex := r.store.lastIndex }) }
  let r1 : Raft := { r with node := n1 }
  if r1.store.lastIndex = 0 ∨ r1.store.lastIndex ≠ r1.store.commitIndex then
    ((appendEntry r1 EntryType.noop "").1, [])
  else pingList r1.node.members r1

/-- node.checkCommitIndex: the element at position len/2 of
`[lastIndex, every member's matchIndex]` sorted in descending order. -/
def insertDesc (x : Int) : List Int → List Int
  | [] => [x]
  | y :: ys => if x ≥ y then x :: y :: ys else y :: insertDesc x ys

/-- Descending insertion sort (sort.Slice with a `>` comparator). -/
def sortDesc (l : List Int) : List Int :=
  l.foldr insertDesc []

/-- The quorum commit candidate computed by node.checkCommitIndex. -/
def checkCommitIndex (r : Raft) : Int :=
  let matchList := sortDesc (r.store.lastIndex :: r.node.members.map Member.matchIndex)
  matchList.getD (matchList.length / 2) 0

/-- Modelled from the spec: Snapshot.go is absent from src.  CreateSnapshot
captures state, lastTerm, lastIndex and the entry suffix (§4.4); the suffix
bound K is an implementation constant, here the whole [firstIndex, lastIndex]
range. -/
def createSnapshot (st : Storage) : Option Snapshot :=
  some { state := st.state, lastTerm := st.lastTerm, lastIndex := st.lastIndex,
         entries := (List.range (st.lastIndex - st.firstIndex + 1).toNat).filterMap
           (fun k => getEntry st (st.firstIndex + k)) }

/-- node.sendInstallSnapshot: encode a snapshot and send it (nothing is sent
when CreateSnapshot fails). -/
def sendInstallSnapshot (r : Raft) (m : Member) : List Message :=
  match createSnapshot r.store with
  | none => []
  | some sn => [send r (newInstallSnapshotMsg m.id sn)]

/-- node.handleRequestVote (Node.go:475-501): silently ignore a candidate
when already voted for someone else; otherwise grant exactly when the
candidate's log is at least as up-to-date, recording and persisting the vote
on grant. -/
def handleRequestVote (r : Raft) (msg : Message) : Raft × List Message :=
  if r.node.voteFor ≠ "" ∧ r.node.voteFor ≠ msg.src then (r, [])
  else
    let granted : Bool :=
      if msg.prevTerm > r.store.lastTerm then true
      else if msg.prevTerm = r.store.lastTerm ∧ msg.prevIndex ≥ r.store.lastIndex then true
      else false
    if granted then
      let r1 : Raft := { r with node := { r.node with electionTimer := 0, voteFor := msg.src } }
      let r2 := saveState r1
      (r2, [send r2 (newRequestVoteAck msg.src true)])
    else
      (r, [send r (newRequestVoteAck msg.src false)])

/-- node.sendDuplicatedAckToMessage: a success=false AppendEntryAck whose
prev fields name the entry just below the mismatched point when it lies below
the tail, and the tail itself otherwise. -/
def dupAckMsg (r : Raft) (msg : Message) : Message :=
  let prev :=
    if msg.prevIndex < r.store.lastIndex then getEntry r.store (msg.prevIndex - 1)
    else getEntry r.store r.store.lastIndex
  let ack0 := newAppendEntryAck msg.src false
  let ack1 : Message :=
    match prev with
    | some p => { ack0 with prevTerm := p.term, prevIndex := p.index }
    | none => ack0
  send r ack1

/-- node.handleAppendEntry (Node.go:526-582).  The leader-role bookkeeping
runs first; above the commit line the prev consistency checks can each fail
into a duplicated NACK; a Ping is acked without a write; any other entry is
rejected below the commit line and written otherwise; both surviving paths
end in CommitEntry(ent.commit).  `none` models a crash (decode failure
followed by a nil dereference, or a fatal apply). -/
def handleAppendEntry (r : Raft) (msg : Message) : Option StepOut :=
  match memberById r.node msg.src with
  | none => none
  | some _ =>
    let n1 : Node :=
      { r.node with electionTimer := 0,
                    members := r.node.members.map (fun m2 =>
                      if m2.id = msg.src then { m2 with role := RoleType.leader, receiveTimeout := 0 }
                      else { m2 with role := RoleType.follower }) }
    let r1 : Raft := { r with node := n1 }
    let body : Option StepOut :=
      match msg.data with
      | MsgData.ent ent =>
        if ent.type = EntryType.ping then
          match commitEntry r1 ent.commit with
          | none => none
          | some r2 =>
            some { raft := r2, sent := [send r1 (newAppendEntryAck msg.src true)],
                   commits := [ent.commit] }
        else
          if ent.index < r1.store.commitIndex then
            some { raft := r1, sent := [dupAckMsg r1 msg], commits := [] }
          else
            let r2 : Raft := { r1 with store := writeEntry r1.store ent }
            match commitEntry r2 ent.commit with
            | none => none
            | some r3 =>
              some { raft := r3, sent := [send r2 (newAppendEntryAck msg.src true)],
                     commits := [ent.commit] }
      | _ => none
    if msg.prevIndex > r1.store.commitIndex then
      if msg.prevIndex ≠ r1.store.lastIndex then
        some { raft := r1, sent := [dupAckMsg r1 msg], commits := [] }
      else
        match getEntry r1.store msg.prevIndex with
        | none => some { raft := r1, sent := [dupAckMsg r1 msg], commits := [] }
        | some prev =>
          if prev.term ≠ msg.prevTerm then
            some { raft := r1, sent := [dupAckMsg r1 msg], commits := [] }
          else body
    else body

/-- The tail of node.handleAppendEntryAck: a brand-new follower
(ack.prevIndex = 0) or one behind firstIndex is sent a snapshot; everyone
else is replicated to. -/
def afterAck (r : Raft) (m : Member) (msgPrevIndex : Int) (commits : List Int) : StepOut :=
  if msgPrevIndex = 0 then
    { raft := r, sent := sendInstallSnapshot r m, commits := commits }
  else if m.nextIndex < r.store.firstIndex then
    { raft := r, sent := sendInstallSnapshot r m, commits := commits }
  else
    let (r1, msgs) := replicateMember r m
    { raft := r1, sent := msgs, commits := commits }

/-- node.handleAppendEntryAck (Node.go:584-625): zero the receive timeout; a
failure ack rewinds nextIndex to the hint + 1; a success ack raises
matchIndex/nextIndex and, when matchIndex clears the commit line, commits the
quorum median only if the entry there carries the current term, pinging the
up-to-date peer afterwards.  `none` models a crash (nil entry at the median,
or a fatal apply). -/
def handleAppendEntryAck (r : Raft) (msg : Message) : Option StepOut :=
  match memberById r.node msg.src with
  | none => none
  | some m0 =>
    let m1 : Member := { m0 with receiveTimeout := 0 }
    if msg.data = MsgData.str "false" then
      let m2 : Member := { m1 with nextIndex := msg.prevIndex + 1 }
      let r2 := setMemberR r m2
      some (afterAck r2 m2 msg.prevIndex [])
    else
      let mi := max m1.matchIndex msg.prevIndex
      let m2 : Member := { m1 with matchIndex := mi, nextIndex := max m1.nextIndex (mi + 1) }
      let r2 := setMemberR r m2
      if mi > r2.store.commitIndex then
        let n := checkCommitIndex r2
        if n > r2.store.commitIndex then
          match getEntry r2.store n with
          | none => none
          | some ent =>
            if ent.term = r2.node.term then
              match commitEntry r2 n with
              | none => none
              | some r3 =>
                if m2.matchIndex = r3.store.lastIndex then
                  let (r4, pmsg) := pingMember r3 m2
                  some { raft := r4, sent := [pmsg], commits := [n] }
                else some (afterAck r3 m2 msg.prevIndex [n])
            else some (afterAck r2 m2 msg.prevIndex [])
        else some (afterAck r2 m2 msg.prevIndex [])
      else some (afterAck r2 m2 msg.prevIndex [])

/-- node.AddMember: a leaderless singleton bootstraps itself into leadership
and appends; any other non-leader refuses with -1; a leader appends the
typed entry and returns its index. -/
def addMemberCall (r : Raft) (nodeId nodeAddr : String) : Raft × Int × List Message :=
  if r.node.role ≠ RoleType.leader then
    if r.node.members.isEmpty then
      let (r1, msgs) := becomeLeader r
      let (r2, ent) := appendEntry r1 EntryType.addMember (nodeId ++ " " ++ nodeAddr)
      (r2, ent.index, msgs)
    else (r, -1, [])
  else
    let (r2, ent) := appendEntry r EntryType.addMember (nodeId ++ " " ++ nodeAddr)
    (r2, ent.index, [])

/-- node.DelMember: refused with -1 unless leader. -/
def delMemberCall (r : Raft) (nodeId : String) : Raft × Int :=
  if r.node.role ≠ RoleType.leader then (r, -1)
  else
    let (r2, ent) := appendEntry r EntryType.delMember nodeId
    (r2, ent.index)

/-- node.Propose: refused with (-1, -1) unless leader. -/
def propose (r : Raft) (data : String) : Raft × Int × Int :=
  if r.node.role ≠ RoleType.leader then (r, -1, -1)
  else
    let (r2, ent) := appendEntry r EntryType.dataEntry data
    (r2, ent.term, ent.index)

/-- Storage.CleanAll: zero commit/last indices, wipe the Db, persist the
fresh state. -/
def cleanAll (r : Raft) : Raft :=
  let st1 : Storage :=
    { r.store with commitIndex := 0, lastTerm := 0, lastIndex := 0,
                   db := { state := none, logs := [] } }
  saveState { r with store := st1 }

/-- node.JoinGroup: refuse to join self or when already in a group; otherwise
reset the Raft identity, adopt the leader as the only peer, become follower
and wipe the database. -/
def joinGroup (r : Raft) (leaderId leaderAddr : String) : Raft :=
  if leaderId = r.node.id then r
  else if r.node.members.length > 0 then r
  else
    let n1 : Node := { r.node with term := 0, voteFor := "", lastApplied := 0 }
    let n2 := nodeAddMember n1 r.store.lastIndex leaderId leaderAddr
    cleanAll (becomeFollower { r with node := n2 })

/-- One iteration of Storage.loadEntries: record the entry and update the
four indices exactly in source order (commitIndex is computed from the
pre-iteration lastIndex). -/
def loadStep (st : Storage) (p : Int × Entry) : Storage :=
  { st with entries := aset st.entries p.2.index p.2,
            commitIndex := max st.lastIndex p.2.index,
            firstIndex := min st.firstIndex p.2.index,
            lastTerm := max st.lastTerm p.2.term,
            lastIndex := max st.lastIndex p.2.index }

/-- Storage.loadEntries: scan every `log#*` record of the Db. -/
def loadEntries (st : Storage) : Storage :=
  st.db.logs.foldl loadStep st

/-- Storage.loadState: take the persisted State when present, keep the fresh
NewState otherwise. -/
def loadState (st : Storage) : Storage :=
  match st.db.state with
  | some s => { st with state := s }
  | none => st

/-- The zeroed Storage NewStorage builds before loading: zero indices, fresh
NewState, firstIndex = math.MaxInt64. -/
def freshStorage (db : Db) : Storage :=
  { firstIndex := 2 ^ 63 - 1, lastTerm := 0, lastIndex := 0, commitIndex := 0,
    state := { term := 0, voteFor := "", members := [] }, entries := [], db := db }

/-- NewStorage: fresh zeroed storage, then loadState and loadEntries over the
given Db. -/
def newStorage (db : Db) : Storage :=
  loadEntries (loadState (freshStorage db))

/-- A sequence of CommitEntry calls, stopped by a fatal apply. -/
def commitSeq (r : Raft) : List Int → Option Raft
  | [] => some r
  | i :: is =>
    match commitEntry r i with
    | none => none
    | some r1 => commitSeq r1 is

/- ### Preservation lemmas: the apply pipeline never touches the log shape -/

theorem applyEntryNode_store (r : Raft) (ent : Entry) :
    (applyEntryNode r ent).store.commitIndex = r.store.commitIndex ∧
    (applyEntryNode r ent).store.lastIndex = r.store.lastIndex ∧
    (applyEntryNode r ent).store.lastTerm = r.store.lastTerm ∧
    (applyEntryNode r ent).store.firstIndex = r.store.firstIndex ∧
    (applyEntryNode r ent).store.entries = r.store.entries ∧
    (applyEntryNode r ent).store.db.logs = r.store.db.logs := by
  unfold applyEntryNode saveState
  cases ent.type
  case addMember =>
    simp only []
    split <;> simp
  all_goals simp

theorem applyEntriesLoop_store (k : Nat) :
    ∀ idx r r1, applyEntriesLoop k idx r = some r1 →
      r1.store.commitIndex = r.store.commitIndex ∧
      r1.store.lastIndex = r.store.lastIndex ∧
      r1.store.lastTerm = r.store.lastTerm ∧
      r1.store.firstIndex = r.store.firstIndex ∧
      r1.store.entries = r.store.entries ∧
      r1.store.db.logs = r.store.db.logs := by
  induction k with
  | zero =>
    intro idx r r1 h
    simp [applyEntriesLoop] at h
    simp [h]
  | succ k ih =>
    intro idx r r1 h
    unfold applyEntriesLoop at h
    cases hg : getEntry r.store idx with
    | none => simp [hg] at h
    | some ent =>
      simp only [hg] at h
      have h2 := ih (idx + 1) (applyEntryNode r ent) r1 h
      have h3 := applyEntryNode_store r ent
      exact ⟨h2.1.trans h3.1, h2.2.1.trans h3.2.1, h2.2.2.1.trans h3.2.2.1,
             h2.2.2.2.1.trans h3.2.2.2.1, h2.2.2.2.2.1.trans h3.2.2.2.2.1,
             h2.2.2.2.2.2.trans h3.2.2.2.2.2⟩

theorem commitEntry_store (r : Raft) (idx : Int) (r1 : Raft)
    (h : commitEntry r idx = some r1) :
    r1.store.commitIndex = max r.store.commitIndex (min idx r.store.lastIndex) ∧
    r1.store.lastIndex = r.store.lastIndex ∧
    r1.store.lastTerm = r.store.lastTerm ∧
    r1.store.firstIndex = r.store.firstIndex ∧
    r1.store.entries = r.store.entries ∧
    r1.store.db.logs = r.store.db.logs := by
  unfold commitEntry at h
  by_cases hc : min idx r.store.lastIndex ≤ r.store.commitIndex
  · simp only [hc, if_pos] at h
    cases h
    simp
    omega
  · simp only [hc, if_neg, not_false_iff] at h
    have h2 := applyEntriesLoop_store _ _ _ _ h
    simp at h2
    refine ⟨?_, by omega, by omega, by omega, h2.2.2.2.2.1, h2.2.2.2.2.2⟩
    omega

theorem commitSeq_props (l : List Int) :
    ∀ r r1, commitSeq r l = some r1 →
      r.store.commitIndex ≤ r1.store.commitIndex ∧
      r1.store.lastIndex = r.store.lastIndex ∧
      (r.store.commitIndex ≤ r.store.lastIndex →
        r1.store.commitIndex ≤ r1.store.lastIndex) := by
  induction l with
  | nil =>
    intro r r1 h
    simp [commitSeq] at h
    simp [h]
  | cons i is ih =>
    intro r r1 h
    unfold commitSeq at h
    cases hc : commitEntry r i with
    | none => simp [hc] at h
    | some r2 =>
      simp only [hc] at h
      have h2 := commitEntry_store r i r2 hc
      have h3 := ih r2 r1 h
      refine ⟨?_, ?_, ?_⟩
      · have : r.store.commitIndex ≤ r2.store.commitIndex := by omega
        omega
      · omega
      · intro hle
        have : r2.store.commitIndex ≤ r2.store.lastIndex := by omega
        omega

/- ### Shared concrete states for witnesses -/

/-- An empty Db. -/
def exDb : Db := { state := none, logs := [] }

/-- A freshly booted single node that has become leader in term 1. -/
def exNode : Node :=
  { id := "n1", addr := "a1", role := RoleType.leader, term := 1, voteFor := "",
    members := [], lastApplied := 0, electionTimer := 0 }

/-- Leader state after appending two Data entries in term 1. -/
def exR2 : Raft :=
  (appendEntry (appendEntry { node := exNode, store := newStorage exDb }
    EntryType.dataEntry "a").1 EntryType.dataEntry "b").1

/-- A peer record with everything acked up to index 1. -/
def exMemberB : Member :=
  { id := "nB", addr := "aB", role := RoleType.follower, nextIndex := 3, matchIndex := 1,
    sendWindow := 3, heartbeatTimer := 0, replicateTimer := 0, receiveTimeout := 0 }

/-- The claim C2 states that CommitEntry clamps its argument to lastIndex,
is a no-op at or below the current commit, otherwise advances commitIndex to
the clamped value and runs the apply pipeline, and that along any sequence of
CommitEntry calls commitIndex never decreases and never exceeds lastIndex. -/
theorem C2_commitEntry_spec (r : Raft) (idx : Int) :
    (min idx r.store.lastIndex ≤ r.store.commitIndex → commitEntry r idx = some r) ∧
    (r.store.commitIndex < min idx r.store.lastIndex →
      commitEntry r idx =
        applyEntries { r with store := { r.store with commitIndex := min idx r.store.lastIndex } }) ∧
    (∀ r1, commitEntry r idx = some r1 →
      r1.store.commitIndex = max r.store.commitIndex (min idx r.store.lastIndex) ∧
      r.store.commitIndex ≤ r1.store.commitIndex ∧
      r1.store.lastIndex = r.store.lastIndex) ∧
    (∀ l r1, commitSeq r l = some r1 →
      r.store.commitIndex ≤ r1.store.commitIndex ∧
      (r.store.commitIndex ≤ r.store.lastIndex →
        r1.store.commitIndex ≤ r1.store.lastIndex)) := by
  refine ⟨?_, ?_, ?_, ?_⟩
  · intro h
    unfold commitEntry
    simp [h]
  · intro h
    unfold commitEntry
    rw [if_neg (by omega)]
  · intro r1 h
    have h2 := commitEntry_store r idx r1 h
    exact ⟨h2.1, by omega, h2.2.1⟩
  · intro l r1 h
    have h3 := commitSeq_props l r r1 h
    exact ⟨h3.1, h3.2.2⟩

/-- Witness: on the two-entry term-1 log, committing 1 then 5 (clamped to 2)
keeps commitIndex nondecreasing and at most lastIndex. -/
theorem C2_commitEntry_spec_witness :
    commitSeq exR2 [1, 5] = some ((commitSeq exR2 [1, 5]).getD exR2) ∧
    exR2.store.commitIndex ≤ ((commitSeq exR2 [1, 5]).getD exR2).store.commitIndex ∧
    ((commitSeq exR2 [1, 5]).getD exR2).store.commitIndex ≤
      ((commitSeq exR2 [1, 5]).getD exR2).store.lastIndex := by
  have hsome : commitSeq exR2 [1, 5] = some ((commitSeq exR2 [1, 5]).getD exR2) := by decide
  have h := (C2_commitEntry_spec exR2 1).2.2.2 [1, 5] _ hsome
  exact ⟨hsome, h.1, h.2 (by decide)⟩

/-- The claim C9 states that a RequestVote from a different candidate than
the recorded vote is ignored with no reply and no state change. -/
theorem C9_requestVote_silent_ignore (r : Raft) (msg : Message)
    (h1 : r.node.voteFor ≠ "") (h2 : r.node.voteFor ≠ msg.src) :
    handleRequestVote r msg = (r, []) := by
  unfold handleRequestVote
  rw [if_pos ⟨h1, h2⟩]

/-- A follower that has already voted for nB. -/
def exVotedR : Raft :=
  { node := { exNode with role := RoleType.follower, voteFor := "nB", members := [exMemberB] },
    store := newStorage exDb }

/-- A RequestVote frame from candidate nC. -/
def exVoteMsgC : Message :=
  { type := MessageType.requestVote, src := "nC", dst := "n1", term := 1,
    prevTerm := 1, prevIndex := 1, data := MsgData.str "" }

/-- Witness: a node that voted for nB silently drops a RequestVote from nC. -/
theorem C9_requestVote_silent_ignore_witness :
    handleRequestVote exVotedR exVoteMsgC = (exVotedR, []) :=
  C9_requestVote_silent_ignore _ _ (by decide) (by decide)

/- ### RequestVote handling -/

/-- Vote availability: not voted in this term, or voted for the same
candidate. -/
def rvFree (r : Raft) (msg : Message) : Prop :=
  r.node.voteFor = "" ∨ r.node.voteFor = msg.src

/-- Log up-to-date check of handleRequestVote. -/
def rvUpToDate (r : Raft) (msg : Message) : Prop :=
  msg.prevTerm > r.store.lastTerm ∨
  (msg.prevTerm = r.store.lastTerm ∧ msg.prevIndex ≥ r.store.lastIndex)

/-- The observable grant outcome of handleRequestVote: the vote is recorded
and persisted, and the single reply is a grant ack. -/
def rvGrants (r : Raft) (msg : Message) : Prop :=
  (handleRequestVote r msg).1 =
    saveState { r with node := { r.node with electionTimer := 0, voteFor := msg.src } } ∧
  (handleRequestVote r msg).2 =
    [send (handleRequestVote r msg).1 (newRequestVoteAck msg.src true)]

theorem rvGrants_iff (r : Raft) (msg : Message) :
    rvGrants r msg ↔ rvFree r msg ∧ rvUpToDate r msg := by
  by_cases hfree : r.node.voteFor ≠ "" ∧ r.node.voteFor ≠ msg.src
  · have hh : handleRequestVote r msg = (r, []) := by
      unfold handleRequestVote
      rw [if_pos hfree]
    constructor
    · intro hg
      exfalso
      have h2 := hg.2
      rw [hh] at h2
      simp at h2
    · intro hfu
      exfalso
      unfold rvFree at hfu
      tauto
  · have hfr : rvFree r msg := by
      unfold rvFree
      tauto
    by_cases hup : rvUpToDate r msg
    · have hh : handleRequestVote r msg =
          (saveState { r with node := { r.node with electionTimer := 0, voteFor := msg.src } },
           [send (saveState { r with node := { r.node with electionTimer := 0, voteFor := msg.src } })
              (newRequestVoteAck msg.src true)]) := by
        unfold handleRequestVote
        rw [if_neg hfree]
        unfold rvUpToDate at hup
        rcases hup with hgt | ⟨heq, hge⟩
        · simp [hgt]
        · simp only [heq]
          simp [hge]
      constructor
      · intro _
        exact ⟨hfr, hup⟩
      · intro _
        unfold rvGrants
        rw [hh]
        exact ⟨rfl, rfl⟩
    · have hh : handleRequestVote r msg = (r, [send r (newRequestVoteAck msg.src false)]) := by
        unfold handleRequestVote
        rw [if_neg hfree]
        unfold rvUpToDate at hup
        push_neg at hup
        have ha := hup.1
        have h1 : ¬ msg.prevTerm > r.store.lastTerm := by omega
        have h2 : ¬ (msg.prevTerm = r.store.lastTerm ∧ msg.prevIndex ≥ r.store.lastIndex) := by
          intro hc
          have hb := hup.2 hc.1
          omega
        simp [h1, h2]
      constructor
      · intro hg
        exfalso
        have hsent := hg.2
        rw [hh] at hsent
        simp only [List.cons.injEq, and_true] at hsent
        have hdata := congrArg Message.data hsent
        simp [send, newRequestVoteAck] at hdata
      · intro hfu
        exact absurd hfu.2 hup

theorem rvGrants_effect (r : Raft) (msg : Message) (hg : rvGrants r msg) :
    (handleRequestVote r msg).1.node.voteFor = msg.src ∧
    (handleRequestVote r msg).1.store.lastTerm = r.store.lastTerm ∧
    (handleRequestVote r msg).1.store.lastIndex = r.store.lastIndex := by
  rw [hg.1]
  unfold saveState
  simp

/-- The claim C5 states that handleRequestVote grants (records the vote,
persists state, replies grant) exactly when the node is free to vote for the
candidate and the candidate's log is at least as up-to-date, and that a
retransmitted RequestVote from the already-voted-for candidate is granted
again. -/
theorem C5_requestVote_grant_iff (r : Raft) (msg : Message) :
    (rvGrants r msg ↔ rvFree r msg ∧ rvUpToDate r msg) ∧
    (rvGrants r msg → (handleRequestVote r msg).1.node.voteFor = msg.src) ∧
    (rvGrants r msg → rvGrants (handleRequestVote r msg).1 msg) := by
  refine ⟨rvGrants_iff r msg, fun hg => (rvGrants_effect r msg hg).1, fun hg => ?_⟩
  have he := rvGrants_effect r msg hg
  have hu : rvUpToDate r msg := ((rvGrants_iff r msg).mp hg).2
  refine (rvGrants_iff _ msg).mpr ⟨Or.inr he.1, ?_⟩
  unfold rvUpToDate at hu ⊢
  rw [he.2.1, he.2.2]
  exact hu

/-- A fresh follower that has not voted yet. -/
def exFreshFollower : Raft :=
  { node := { exNode with role := RoleType.follower, members := [exMemberB] },
    store := newStorage exDb }

/-- Witness: a fresh follower grants nC's RequestVote and grants the
retransmission of the same message again. -/
theorem C5_requestVote_grant_iff_witness :
    rvGrants exFreshFollower exVoteMsgC ∧
    rvGrants (handleRequestVote exFreshFollower exVoteMsgC).1 exVoteMsgC := by
  have h := C5_requestVote_grant_iff exFreshFollower exVoteMsgC
  have hg : rvGrants exFreshFollower exVoteMsgC :=
    h.1.mpr ⟨Or.inl (by decide), Or.inl (by decide)⟩
  exact ⟨hg, h.2.2 hg⟩

/- ### Log writes -/

/-- Every stored entry sits under its own index as key; all writers of the
entry map maintain this. -/
def IndexConsistent (l : List (Int × Entry)) : Prop :=
  ∀ i e, alookup l i = some e → e.index = i

theorem alookup_aset_self (l : List (Int × Entry)) (i : Int) (e : Entry) :
    alookup (aset l i e) i = some e := by
  induction l with
  | nil => simp [aset, alookup]
  | cons p rest ih =>
    by_cases hp : p.1 = i <;> simp [aset, alookup, hp, ih]

theorem alookup_aset_ne (l : List (Int × Entry)) (i j : Int) (e : Entry)
    (h : j ≠ i) : alookup (aset l i e) j = alookup l j := by
  induction l with
  | nil =>
    simp only [aset, alookup]
    rw [if_neg (Ne.symm h)]
  | cons p rest ih =>
    by_cases hp : p.1 = i
    · have hpj : ¬ p.1 = j := by
        rw [hp]
        exact Ne.symm h
      simp [aset, alookup, hp, hpj, Ne.symm h]
    · by_cases hq : p.1 = j <;> simp [aset, alookup, hp, hq, h, ih]

theorem IndexConsistent_aset (l : List (Int × Entry)) (e : Entry)
    (h : IndexConsistent l) : IndexConsistent (aset l e.index e) := by
  intro i x hx
  by_cases hi : i = e.index
  · subst hi
    rw [alookup_aset_self] at hx
    cases hx
    rfl
  · rw [alookup_aset_ne l e.index i e hi] at hx
    exact h i x hx

theorem advanceLoop_frame (fuel : Nat) :
    ∀ st : Storage,
      (advanceLoop fuel st).entries = st.entries ∧
      (advanceLoop fuel st).commitIndex = st.commitIndex ∧
      (advanceLoop fuel st).firstIndex = st.firstIndex := by
  induction fuel with
  | zero => intro st; simp [advanceLoop]
  | succ fuel ih =>
    intro st
    unfold advanceLoop
    cases hg : getEntry st (st.lastIndex + 1) with
    | none => simp
    | some ent => simpa using ih _

theorem advanceLoop_lastIndex_mono (fuel : Nat) :
    ∀ st : Storage, IndexConsistent st.entries →
      st.lastIndex ≤ (advanceLoop fuel st).lastIndex := by
  induction fuel with
  | zero => intro st _; simp [advanceLoop]
  | succ fuel ih =>
    intro st hic
    cases hg : getEntry st (st.lastIndex + 1) with
    | none => simp [advanceLoop, hg]
    | some ent =>
      have hidx : ent.index = st.lastIndex + 1 := hic _ _ hg
      have h2 := ih { st with lastTerm := ent.term, lastIndex := ent.index,
                              db := dbSetLog st.db ent.index ent } hic
      simp only [advanceLoop, hg]
      simp only at h2
      omega

theorem writeEntry_facts (st : Storage) (ent : Entry)
    (hgt : st.commitIndex < ent.index) (hic : IndexConsistent st.entries) :
    getEntry (writeEntry st ent) ent.index = some ent ∧
    (writeEntry st ent).commitIndex = st.commitIndex ∧
    IndexConsistent (writeEntry st ent).entries ∧
    st.lastIndex ≤ (writeEntry st ent).lastIndex := by
  unfold writeEntry
  rw [if_neg (by omega)]
  set st1 : Storage :=
    { st with entries := aset st.entries ent.index ent,
              firstIndex := min st.firstIndex ent.index } with hst1
  have hic1 : IndexConsistent st1.entries := by
    rw [hst1]
    exact IndexConsistent_aset st.entries ent hic
  have hframe := advanceLoop_frame (st1.entries.length + 1) st1
  refine ⟨?_, ?_, ?_, ?_⟩
  · unfold getEntry
    rw [hframe.1, hst1]
    exact alookup_aset_self st.entries ent.index ent
  · rw [hframe.2.1]
  · rw [hframe.1]
    exact hic1
  · have := advanceLoop_lastIndex_mono (st1.entries.length + 1) st1 hic1
    simpa [hst1] using this

theorem pingList_frame (l : List Member) :
    ∀ r, (pingList l r).1.store = r.store ∧
      (pingList l r).1.node.role = r.node.role ∧
      (pingList l r).1.node.term = r.node.term := by
  induction l with
  | nil => intro r; simp [pingList]
  | cons m ms ih =>
    intro r
    have h1 := ih (pingMember r m).1
    simp only [pingList]
    refine ⟨h1.1.trans ?_, h1.2.1.trans ?_, h1.2.2.trans ?_⟩ <;>
      simp [pingMember, setMemberR, setMember]

theorem becomeLeader_facts (r : Raft) (hle : r.store.commitIndex ≤ r.store.lastIndex)
    (hic : IndexConsistent r.store.entries) :
    (becomeLeader r).1.node.role = RoleType.leader ∧
    (becomeLeader r).1.node.term = r.node.term ∧
    (becomeLeader r).1.store.commitIndex ≤ (becomeLeader r).1.store.lastIndex ∧
    IndexConsistent (becomeLeader r).1.store.entries := by
  simp only [becomeLeader]
  split
  · simp only [appendEntry]
    have hw := writeEntry_facts r.store
      { type := EntryType.noop, term := r.node.term, index := r.store.lastIndex + 1,
        commit := r.store.commitIndex, data := "" }
      (by simp; omega) hic
    simp only at hw
    refine ⟨by trivial, by trivial, ?_, hw.2.2.1⟩
    omega
  · refine ⟨(pingList_frame _ _).2.1.trans rfl, (pingList_frame _ _).2.2.trans rfl, ?_, ?_⟩
    · rw [(pingList_frame _ _).1]
      exact hle
    · rw [(pingList_frame _ _).1]
      exact hic

/-- The claim C8 states that AddMember, DelMember and Propose on a non-leader
append nothing and return negative sentinels, except that AddMember on a
peerless non-leader bootstraps it into leadership, appends the AddMember
entry and returns its index. -/
theorem C8_not_leader_sentinels (r : Raft) (nodeId nodeAddr payload : String)
    (h : r.node.role ≠ RoleType.leader) :
    delMemberCall r nodeId = (r, -1) ∧
    propose r payload = (r, -1, -1) ∧
    (r.node.members ≠ [] → addMemberCall r nodeId nodeAddr = (r, -1, [])) ∧
    (r.node.members = [] → r.store.commitIndex ≤ r.store.lastIndex →
      IndexConsistent r.store.entries →
      (addMemberCall r nodeId nodeAddr).1.node.role = RoleType.leader ∧
      ∃ ent : Entry, ent.type = EntryType.addMember ∧
        ent.data = nodeId ++ " " ++ nodeAddr ∧
        getEntry (addMemberCall r nodeId nodeAddr).1.store ent.index = some ent ∧
        (addMemberCall r nodeId nodeAddr).2.1 = ent.index) := by
  refine ⟨?_, ?_, ?_, ?_⟩
  · unfold delMemberCall
    rw [if_pos h]
  · unfold propose
    rw [if_pos h]
  · intro hm
    unfold addMemberCall
    rw [if_pos h, if_neg (by simp [hm])]
  · intro hm hle hic
    have hbl := becomeLeader_facts r hle hic
    unfold addMemberCall
    rw [if_pos h, if_pos (by simp [hm])]
    simp only [appendEntry]
    set r1 : Raft := (becomeLeader r).1 with hr1
    have hw := writeEntry_facts r1.store
      { type := EntryType.addMember, term := r1.node.term, index := r1.store.lastIndex + 1,
        commit := r1.store.commitIndex, data := nodeId ++ " " ++ nodeAddr }
      (by simp; omega) hbl.2.2.2
    refine ⟨hbl.1, ?_⟩
    refine ⟨{ type := EntryType.addMember, term := r1.node.term,
              index := r1.store.lastIndex + 1, commit := r1.store.commitIndex,
              data := nodeId ++ " " ++ nodeAddr }, rfl, rfl, ?_, rfl⟩
    exact hw.1

theorem IndexConsistent_nil : IndexConsistent [] := by
  intro i e he
  simp [alookup] at he

/-- A peerless follower right after boot. -/
def exSolo : Raft :=
  { node := { exNode with role := RoleType.follower }, store := newStorage exDb }

/-- Witness for C8: a follower with a peer refuses DelMember with -1, and the
peerless follower's AddMember bootstrap makes it leader. -/
theorem C8_not_leader_sentinels_witness :
    delMemberCall exFreshFollower "n9" = (exFreshFollower, -1) ∧
    (addMemberCall exSolo "n1" "a1").1.node.role = RoleType.leader := by
  have h1 := C8_not_leader_sentinels exFreshFollower "n9" "a9" "p" (by decide)
  have h2 := C8_not_leader_sentinels exSolo "n1" "a1" "p" (by decide)
  have hic : IndexConsistent exSolo.store.entries := by
    have he : exSolo.store.entries = [] := by decide
    rw [he]
    exact IndexConsistent_nil
  exact ⟨h1.1, (h2.2.2.2 (by decide) (by decide) hic).1⟩

/-- The claim C10 states that JoinGroup is a no-op for self-joins or when
already grouped, and otherwise resets term/vote/lastApplied, installs the
leader as the sole peer, becomes follower, and wipes the database with
commit/last indices zeroed and the fresh state persisted. -/
theorem C10_joinGroup_spec (r : Raft) (leaderId leaderAddr : String) :
    (leaderId = r.node.id → joinGroup r leaderId leaderAddr = r) ∧
    (r.node.members ≠ [] → joinGroup r leaderId leaderAddr = r) ∧
    (leaderId ≠ r.node.id → r.node.members = [] →
      ((joinGroup r leaderId leaderAddr).node.term = 0 ∧
       (joinGroup r leaderId leaderAddr).node.voteFor = "" ∧
       (joinGroup r leaderId leaderAddr).node.lastApplied = 0 ∧
       (joinGroup r leaderId leaderAddr).node.members.map (fun m => (m.id, m.addr)) =
         [(leaderId, leaderAddr)] ∧
       (joinGroup r leaderId leaderAddr).node.role = RoleType.follower ∧
       (joinGroup r leaderId leaderAddr).store.commitIndex = 0 ∧
       (joinGroup r leaderId leaderAddr).store.lastTerm = 0 ∧
       (joinGroup r leaderId leaderAddr).store.lastIndex = 0 ∧
       (joinGroup r leaderId leaderAddr).store.db.logs = [] ∧
       (joinGroup r leaderId leaderAddr).store.db.state =
         some (joinGroup r leaderId leaderAddr).store.state)) := by
  refine ⟨?_, ?_, ?_⟩
  · intro h
    unfold joinGroup
    simp [h]
  · intro h
    have hlen : r.node.members.length > 0 := List.length_pos.mpr h
    unfold joinGroup
    by_cases hid : leaderId = r.node.id
    · simp [hid]
    · rw [if_neg hid, if_pos hlen]
  · intro h1 h2
    by_cases hrole : r.node.role = RoleType.follower <;>
      simp [joinGroup, nodeAddMember, becomeFollower, cleanAll, saveState,
            resetMember, h1, h2, hrole]

theorem afterAck_commits (r : Raft) (m : Member) (p : Int) (cs : List Int) :
    (afterAck r m p cs).commits = cs := by
  unfold afterAck
  split_ifs <;> simp

/-- The claim C1 states that the success path of handleAppendEntryAck calls
CommitEntry only on the quorum median N computed by checkCommitIndex after
the matchIndex update, and only when N exceeds the current commitIndex and
the entry at N carries the node's current term — never an entry of a smaller
term. -/
theorem C1_quorum_commit_current_term (r : Raft) (msg : Message) (out : StepOut)
    (h : handleAppendEntryAck r msg = some out) :
    ∀ n ∈ out.commits,
      r.store.commitIndex < n ∧
      (∃ m0, memberById r.node msg.src = some m0 ∧
        n = checkCommitIndex (setMemberR r
          { m0 with receiveTimeout := 0,
                    matchIndex := max m0.matchIndex msg.prevIndex,
                    nextIndex := max m0.nextIndex (max m0.matchIndex msg.prevIndex + 1) })) ∧
      ∃ ent, getEntry r.store n = some ent ∧ ent.term = r.node.term ∧
        ¬ ent.term < r.node.term := by
  intro n hn
  unfold handleAppendEntryAck at h
  cases hm : memberById r.node msg.src with
  | none =>
    rw [hm] at h
    exact absurd h (by simp)
  | some m0 =>
    rw [hm] at h
    simp only at h
    by_cases hf : msg.data = MsgData.str "false"
    · rw [if_pos hf] at h
      cases h
      rw [afterAck_commits] at hn
      exact absurd hn (by simp)
    · rw [if_neg hf] at h
      by_cases hmi : max m0.matchIndex msg.prevIndex >
          (setMemberR r
            { m0 with receiveTimeout := 0,
                      matchIndex := max m0.matchIndex msg.prevIndex,
                      nextIndex := max m0.nextIndex (max m0.matchIndex msg.prevIndex + 1) }).store.commitIndex
      · rw [if_pos hmi] at h
        by_cases hn2 : checkCommitIndex (setMemberR r
            { m0 with receiveTimeout := 0,
                      matchIndex := max m0.matchIndex msg.prevIndex,
                      nextIndex := max m0.nextIndex (max m0.matchIndex msg.prevIndex + 1) }) >
            (setMemberR r
              { m0 with receiveTimeout := 0,
                        matchIndex := max m0.matchIndex msg.prevIndex,
                        nextIndex := max m0.nextIndex (max m0.matchIndex msg.prevIndex + 1) }).store.commitIndex
        · rw [if_pos hn2] at h
          cases hge : getEntry (setMemberR r
              { m0 with receiveTimeout := 0,
                        matchIndex := max m0.matchIndex msg.prevIndex,
                        nextIndex := max m0.nextIndex (max m0.matchIndex msg.prevIndex + 1) }).store
              (checkCommitIndex (setMemberR r
                { m0 with receiveTimeout := 0,
                          matchIndex := max m0.matchIndex msg.prevIndex,
                          nextIndex := max m0.nextIndex (max m0.matchIndex msg.prevIndex + 1) })) with
          | none =>
            rw [hge] at h
            exact absurd h (by simp)
          | some ent =>
            rw [hge] at h
            simp only at h
            by_cases hterm : ent.term =
                (setMemberR r
                  { m0 with receiveTimeout := 0,
                            matchIndex := max m0.matchIndex msg.prevIndex,
                            nextIndex := max m0.nextIndex (max m0.matchIndex msg.prevIndex + 1) }).node.term
            · rw [if_pos hterm] at h
              cases hce : commitEntry (setMemberR r
                  { m0 with receiveTimeout := 0,
                            matchIndex := max m0.matchIndex msg.prevIndex,
                            nextIndex := max m0.nextIndex (max m0.matchIndex msg.prevIndex + 1) })
                  (checkCommitIndex (setMemberR r
                    { m0 with receiveTimeout := 0,
                              matchIndex := max m0.matchIndex msg.prevIndex,
                              nextIndex := max m0.nextIndex (max m0.matchIndex msg.prevIndex + 1) })) with
              | none =>
                rw [hce] at h
                exact absurd h (by simp)
              | some r3 =>
                rw [hce] at h
                simp only at h
                have hcommits : out.commits =
                    [checkCommitIndex (setMemberR r
                      { m0 with receiveTimeout := 0,
                                matchIndex := max m0.matchIndex msg.prevIndex,
                                nextIndex := max m0.nextIndex (max m0.matchIndex msg.prevIndex + 1) })] := by
                  split at h
                  · cases h
                    rfl
                  · cases h
                    rw [afterAck_commits]
                rw [hcommits] at hn
                have hnn := List.mem_singleton.mp hn
                subst hnn
                have ht2 : ent.term = r.node.term := hterm
                have hn2b : r.store.commitIndex <
                    checkCommitIndex (setMemberR r
                      { m0 with receiveTimeout := 0,
                                matchIndex := max m0.matchIndex msg.prevIndex,
                                nextIndex := max m0.nextIndex (max m0.matchIndex msg.prevIndex + 1) }) := hn2
                refine ⟨hn2b, ⟨m0, rfl, rfl⟩, ⟨ent, hge, ht2, by omega⟩⟩
            · rw [if_neg hterm] at h
              cases h
              rw [afterAck_commits] at hn
              exact absurd hn (by simp)
        · rw [if_neg hn2] at h
          cases h
          rw [afterAck_commits] at hn
          exact absurd hn (by simp)
      · rw [if_neg hmi] at h
        cases h
        rw [afterAck_commits] at hn
        exact absurd hn (by simp)

/-- A second peer that has acked nothing yet. -/
def exMemberC : Member := { exMemberB with id := "nC", addr := "aC", matchIndex := 0 }

/-- The two-entry leader with peers nB and nC. -/
def exRL : Raft :=
  { node := { exNode with members := [exMemberB, exMemberC] }, store := exR2.store }

/-- A successful AppendEntryAck from nB for index 2. -/
def exAckMsg : Message :=
  { type := MessageType.appendEntryAck, src := "nB", dst := "n1", term := 1,
    prevTerm := 1, prevIndex := 2, data := MsgData.str "true" }

/-- Placeholder StepOut for Option.getD. -/
def exStepOutDummy : StepOut := { raft := exRL, sent := [], commits := [] }

/-- Witness for C1: nB's ack at index 2 reaches quorum; the commit call
targets index 2, above commitIndex 0, and the entry there carries term 1 =
node term. -/
theorem C1_quorum_commit_current_term_witness :
    2 ∈ ((handleAppendEntryAck exRL exAckMsg).getD exStepOutDummy).commits ∧
    exRL.store.commitIndex < 2 ∧
    ∃ ent, getEntry exRL.store 2 = some ent ∧ ent.term = exRL.node.term := by
  have h := C1_quorum_commit_current_term exRL exAckMsg
    ((handleAppendEntryAck exRL exAckMsg).getD exStepOutDummy) (by decide) 2 (by decide)
  obtain ⟨e, he, ht, _⟩ := h.2.2
  exact ⟨by decide, h.1, e, he, ht⟩

/- ### The leader-side member invariant after acks -/

/-- Every member with the given id satisfies matchIndex ≤ nextIndex − 1. -/
def AckOk (src : String) (n : Node) : Prop :=
  ∀ m ∈ n.members, m.id = src → m.matchIndex ≤ m.nextIndex - 1

theorem AckOk_setMember_of_id (n : Node) (m2 : Member) (src : String)
    (hid : m2.id = src) (hgood : m2.matchIndex ≤ m2.nextIndex - 1) :
    AckOk src (setMember n m2) := by
  intro y hy hysrc
  simp only [setMember, List.mem_map] at hy
  obtain ⟨x, _, hxy⟩ := hy
  by_cases hxi : x.id = m2.id
  · rw [if_pos hxi] at hxy
    rw [← hxy]
    exact hgood
  · rw [if_neg hxi] at hxy
    subst hxy
    exact absurd (hysrc.trans hid.symm) hxi

theorem AckOk_applyEntryNode (src : String) (r : Raft) (ent : Entry)
    (hl : 0 ≤ r.store.lastIndex) (ha : AckOk src r.node) :
    AckOk src (applyEntryNode r ent).node := by
  unfold applyEntryNode saveState nodeAddMember nodeRemoveMember
  cases ent.type <;> simp only
  case addMember =>
    split
    · split
      · intro y hy hid
        exact ha y hy hid
      · split
        · intro y hy hid
          simp only [List.mem_append, List.mem_singleton] at hy
          cases hy with
          | inl hy2 => exact ha y hy2 hid
          | inr hy2 =>
            subst hy2
            simp only
            omega
        · intro y hy hid
          exact ha y hy hid
    · intro y hy hid
      exact ha y hy hid
  case delMember =>
    split
    · intro y hy hid
      exact ha y hy hid
    · intro y hy hid
      exact ha y (List.mem_of_mem_filter hy) hid
  all_goals
    intro y hy hid
    exact ha y hy hid

theorem AckOk_applyLoop (src : String) (k : Nat) :
    ∀ idx r r1, applyEntriesLoop k idx r = some r1 → 0 ≤ r.store.lastIndex →
      AckOk src r.node → AckOk src r1.node := by
  induction k with
  | zero =>
    intro idx r r1 h _ ha
    simp [applyEntriesLoop] at h
    rw [← h]
    exact ha
  | succ k ih =>
    intro idx r r1 h hl ha
    unfold applyEntriesLoop at h
    cases hg : getEntry r.store idx with
    | none => simp [hg] at h
    | some ent =>
      rw [hg] at h
      simp only at h
      have hl2 : 0 ≤ (applyEntryNode r ent).store.lastIndex := by
        rw [(applyEntryNode_store r ent).2.1]
        exact hl
      exact ih (idx + 1) _ r1 h hl2 (AckOk_applyEntryNode src r ent hl ha)

theorem AckOk_commitEntry (src : String) (r : Raft) (i : Int) (r1 : Raft)
    (h : commitEntry r i = some r1) (hl : 0 ≤ r.store.lastIndex)
    (ha : AckOk src r.node) : AckOk src r1.node := by
  unfold commitEntry at h
  by_cases hc : min i r.store.lastIndex ≤ r.store.commitIndex
  · simp only [hc, if_pos] at h
    cases h
    exact ha
  · simp only [hc, if_neg, not_false_iff] at h
    unfold applyEntries at h
    exact AckOk_applyLoop src _ _ _ _ h hl ha

theorem AckOk_replicateLoop (src : String) (fuel : Nat) :
    ∀ r m maxI acc, m.id = src → m.matchIndex ≤ m.nextIndex - 1 →
      AckOk src r.node → AckOk src (replicateLoop fuel r m maxI acc).1.node := by
  induction fuel with
  | zero =>
    intro r m maxI acc _ _ ha
    exact ha
  | succ fuel ih =>
    intro r m maxI acc hid hg ha
    unfold replicateLoop
    split
    · cases hge : getEntry r.store m.nextIndex with
      | none => exact ha
      | some ent0 =>
        have hid1 : ({ m with nextIndex := m.nextIndex + 1, heartbeatTimer := 0 } : Member).id = src := hid
        have hg1 : ({ m with nextIndex := m.nextIndex + 1, heartbeatTimer := 0 } : Member).matchIndex ≤
            ({ m with nextIndex := m.nextIndex + 1, heartbeatTimer := 0 } : Member).nextIndex - 1 := by
          simp only
          omega
        exact ih _ _ _ _ hid1 hg1 (AckOk_setMember_of_id _ _ src hid1 hg1)
    · exact ha

theorem AckOk_replicateMember (src : String) (r : Raft) (m : Member)
    (hid : m.id = src) (hg : m.matchIndex ≤ m.nextIndex - 1)
    (ha : AckOk src r.node) : AckOk src (replicateMember r m).1.node := by
  unfold replicateMember
  split
  · exact ha
  · have hid1 : ({ m with replicateTimer := 0 } : Member).id = src := hid
    have hg1 : ({ m with replicateTimer := 0 } : Member).matchIndex ≤
        ({ m with replicateTimer := 0 } : Member).nextIndex - 1 := hg
    exact AckOk_replicateLoop src _ _ _ _ _ hid1 hg1
      (AckOk_setMember_of_id _ _ src hid1 hg1)

theorem AckOk_pingMember (src : String) (r : Raft) (m : Member)
    (hid : m.id = src) (hg : m.matchIndex ≤ m.nextIndex - 1) :
    AckOk src (pingMember r m).1.node := by
  unfold pingMember
  simp only [setMemberR]
  exact AckOk_setMember_of_id _ _ src hid (by simp; omega)

theorem AckOk_afterAck (src : String) (r : Raft) (m : Member) (p : Int)
    (cs : List Int) (hid : m.id = src) (hg : m.matchIndex ≤ m.nextIndex - 1)
    (ha : AckOk src r.node) : AckOk src (afterAck r m p cs).raft.node := by
  unfold afterAck
  split_ifs
  · exact ha
  · exact ha
  · simp only
    exact AckOk_replicateMember src r m hid hg ha

theorem becomeLeader_nextIndex (r : Raft) :
    ∀ m ∈ (becomeLeader r).1.node.members, m.nextIndex = r.store.lastIndex := by
  have base : ∀ m ∈ r.node.members.map (fun m =>
      { resetMember m r.store.lastIndex with nextIndex := r.store.lastIndex }),
      m.nextIndex = r.store.lastIndex := by
    intro m hm
    simp only [List.mem_map] at hm
    obtain ⟨x, _, hx⟩ := hm
    rw [← hx]
  have piw : ∀ (l : List Member), (∀ m ∈ l, m.nextIndex = r.store.lastIndex) →
      ∀ rr : Raft, (∀ m ∈ rr.node.members, m.nextIndex = r.store.lastIndex) →
      ∀ m ∈ (pingList l rr).1.node.members, m.nextIndex = r.store.lastIndex := by
    intro l
    induction l with
    | nil =>
      intro _ rr hr m hm
      exact hr m hm
    | cons x xs ih =>
      intro hl rr hr
      simp only [pingList]
      apply ih (fun m hm => hl m (List.mem_cons_of_mem x hm))
      intro m hm
      simp only [pingMember, setMemberR, setMember, List.mem_map] at hm
      obtain ⟨y, hy, hxy⟩ := hm
      by_cases hyi : y.id = x.id
      · rw [if_pos hyi] at hxy
        rw [← hxy]
        exact hl x (List.mem_cons_self x xs)
      · rw [if_neg hyi] at hxy
        subst hxy
        exact hr y hy
  simp only [becomeLeader]
  split
  · simp only [appendEntry]
    exact base
  · exact piw _ base _ base

/-- The claim C3, amended: immediately after becomeLeader every peer's
nextIndex equals storage.lastIndex (so nextIndex ≥ 1 whenever the log is
non-empty, but not when it is empty), and after the success path of
handleAppendEntryAck the acked peer satisfies matchIndex ≤ nextIndex − 1
(the failure path can rewind nextIndex below matchIndex + 1). -/
theorem C3_amended (r : Raft) (msg : Message) :
    (∀ m ∈ (becomeLeader r).1.node.members, m.nextIndex = r.store.lastIndex) ∧
    (1 ≤ r.store.lastIndex → ∀ m ∈ (becomeLeader r).1.node.members, 1 ≤ m.nextIndex) ∧
    (0 ≤ r.store.lastIndex → msg.data ≠ MsgData.str "false" →
      ∀ out, handleAppendEntryAck r msg = some out →
        ∀ m ∈ out.raft.node.members, m.id = msg.src →
          m.matchIndex ≤ m.nextIndex - 1) := by
  refine ⟨becomeLeader_nextIndex r, ?_, ?_⟩
  · intro h1 m hm
    rw [becomeLeader_nextIndex r m hm]
    exact h1
  · intro hl hdata out h
    unfold handleAppendEntryAck at h
    cases hm : memberById r.node msg.src with
    | none =>
      rw [hm] at h
      exact absurd h (by simp)
    | some m0 =>
      have hid : m0.id = msg.src := by
        have := List.find?_some hm
        simpa using this
      rw [hm] at h
      simp only at h
      rw [if_neg hdata] at h
      set m2 : Member :=
        { m0 with receiveTimeout := 0,
                  matchIndex := max m0.matchIndex msg.prevIndex,
                  nextIndex := max m0.nextIndex (max m0.matchIndex msg.prevIndex + 1) } with hm2def
      set r2 : Raft := setMemberR r m2 with hr2def
      have hm2id : m2.id = msg.src := by
        rw [hm2def]
        exact hid
      have hgood : m2.matchIndex ≤ m2.nextIndex - 1 := by
        rw [hm2def]
        simp
        omega
      have ha2 : AckOk msg.src r2.node := by
        rw [hr2def]
        exact AckOk_setMember_of_id _ _ _ hm2id hgood
      have hl2 : 0 ≤ r2.store.lastIndex := hl
      split at h
      · split at h
        · cases hge : getEntry r2.store (checkCommitIndex r2) with
          | none =>
            rw [hge] at h
            exact absurd h (by simp)
          | some ent =>
            rw [hge] at h
            simp only at h
            split at h
            · cases hce : commitEntry r2 (checkCommitIndex r2) with
              | none =>
                rw [hce] at h
                exact absurd h (by simp)
              | some r3 =>
                rw [hce] at h
                simp only at h
                have ha3 : AckOk msg.src r3.node :=
                  AckOk_commitEntry _ r2 _ r3 hce hl2 ha2
                split at h
                · cases h
                  exact AckOk_pingMember msg.src r3 m2 hm2id hgood
                · cases h
                  exact AckOk_afterAck msg.src r3 m2 _ _ hm2id hgood ha3
            · cases h
              exact AckOk_afterAck msg.src r2 m2 _ _ hm2id hgood ha2
        · cases h
          exact AckOk_afterAck msg.src r2 m2 _ _ hm2id hgood ha2
      · cases h
        exact AckOk_afterAck msg.src r2 m2 _ _ hm2id hgood ha2

/-- A candidate with one peer and an empty log. -/
def exCandEmptyLog : Raft :=
  { node := { exNode with role := RoleType.candidate, members := [exMemberB] },
    store := newStorage exDb }

/-- A leader whose peer nB has matchIndex 5 and nextIndex 7. -/
def exRL5 : Raft :=
  { node := { exNode with members := [{ exMemberB with matchIndex := 5, nextIndex := 7 }] },
    store := exR2.store }

/-- A failure AppendEntryAck from nB hinting prevIndex 2. -/
def exNackMsg : Message := { exAckMsg with data := MsgData.str "false" }

/-- Counterexample to C3 as stated: after becomeLeader on an empty log the
peer's nextIndex is 0, not ≥ 1; and after a failure ack whose hint lies below
matchIndex the peer has matchIndex 5 > nextIndex − 1 = 2. -/
theorem C3_counterexample :
    ((becomeLeader exCandEmptyLog).1.node.members.map Member.nextIndex = [0] ∧
     ¬ (1 ≤ (0 : Int))) ∧
    ((handleAppendEntryAck exRL5 exNackMsg).map
        (fun o => o.raft.node.members.map (fun m => (m.matchIndex, m.nextIndex))) =
      some [(5, 3)] ∧
     ¬ ((5 : Int) ≤ 3 - 1)) := by
  refine ⟨⟨by decide, by decide⟩, ⟨by decide, by decide⟩⟩

/-- Witness for the amended C3: on the two-entry leader the reset nextIndex
is lastIndex = 2 ≥ 1, and after nB's successful ack nB satisfies
matchIndex ≤ nextIndex − 1. -/
theorem C3_amended_witness :
    (∀ m ∈ (becomeLeader exRL).1.node.members, 1 ≤ m.nextIndex) ∧
    (∀ m ∈ ((handleAppendEntryAck exRL exAckMsg).getD exStepOutDummy).raft.node.members,
      m.id = exAckMsg.src → m.matchIndex ≤ m.nextIndex - 1) := by
  have h := C3_amended exRL exAckMsg
  exact ⟨h.2.1 (by decide), h.2.2 (by decide) (by decide) _ (by decide)⟩

theorem send_data (r : Raft) (m : Message) : (send r m).data = m.data := by
  simp only [send]
  split <;> rfl

theorem dupAckMsg_false (r : Raft) (msg : Message) :
    (dupAckMsg r msg).data = MsgData.str "false" := by
  unfold dupAckMsg
  rw [send_data]
  split <;> rfl

/-- The prev-consistency checks of handleAppendEntry fail above the commit
line: the prev hint does not name the local tail, or the entry there is
missing or carries a different term. -/
def prevCheckFails (r : Raft) (msg : Message) : Prop :=
  msg.prevIndex > r.store.commitIndex ∧
  (msg.prevIndex ≠ r.store.lastIndex ∨
    ∀ prev, getEntry r.store msg.prevIndex = some prev → prev.term ≠ msg.prevTerm)

theorem C4ping_body (rr : Raft) (msg : Message) (ent : Entry) (out : StepOut)
    (hout : (match commitEntry rr ent.commit with
             | none => none
             | some r2 => some { raft := r2, sent := [send rr (newAppendEntryAck msg.src true)], commits := [ent.commit] }) = some out) :
    out.commits = [ent.commit] ∧
    out.raft.store.entries = rr.store.entries ∧
    out.raft.store.db.logs = rr.store.db.logs ∧
    ∃ m1, out.sent = [m1] ∧ m1.data = MsgData.str "true" := by
  cases hce : commitEntry rr ent.commit with
  | none =>
    rw [hce] at hout
    exact absurd hout (by simp)
  | some r2 =>
    rw [hce] at hout
    simp only at hout
    cases hout
    have hst := commitEntry_store rr ent.commit r2 hce
    refine ⟨rfl, hst.2.2.2.2.1, hst.2.2.2.2.2, ⟨send rr (newAppendEntryAck msg.src true), rfl, ?_⟩⟩
    rw [send_data]
    rfl

/-- The claim C4 states that a follower processing AppendEntry above its
commit line proceeds only when prevIndex names its tail and the entry there
matches msg.prevTerm, replying a duplicated success=false NACK and writing
nothing otherwise; a Ping is acked true and drives CommitEntry(ent.commit)
without touching the log; a non-Ping entry below commitIndex is NACKed and
not written. -/
theorem C4_handleAppendEntry_spec (r : Raft) (msg : Message) :
    (∀ out, handleAppendEntry r msg = some out → prevCheckFails r msg →
      out.raft.store = r.store ∧ out.sent = [dupAckMsg out.raft msg] ∧
      (dupAckMsg out.raft msg).data = MsgData.str "false" ∧ out.commits = []) ∧
    (∀ out ent, handleAppendEntry r msg = some out → msg.data = MsgData.ent ent →
      ¬ prevCheckFails r msg → ent.type = EntryType.ping →
      out.commits = [ent.commit] ∧ out.raft.store.entries = r.store.entries ∧
      out.raft.store.db.logs = r.store.db.logs ∧
      ∃ m1, out.sent = [m1] ∧ m1.data = MsgData.str "true") ∧
    (∀ out ent, handleAppendEntry r msg = some out → msg.data = MsgData.ent ent →
      ¬ prevCheckFails r msg → ent.type ≠ EntryType.ping →
      ent.index < r.store.commitIndex →
      out.raft.store = r.store ∧ out.sent = [dupAckMsg out.raft msg] ∧
      out.commits = []) := by
  refine ⟨?_, ?_, ?_⟩
  · intro out hout hfail
    obtain ⟨hgt, hrest⟩ := hfail
    unfold handleAppendEntry at hout
    cases hm : memberById r.node msg.src with
    | none =>
      rw [hm] at hout
      exact absurd hout (by simp)
    | some m0 =>
      rw [hm] at hout
      simp only at hout
      rw [if_pos hgt] at hout
      by_cases hne : msg.prevIndex ≠ r.store.lastIndex
      · rw [if_pos hne] at hout
        cases hout
        exact ⟨rfl, rfl, dupAckMsg_false _ _, rfl⟩
      · cases hrest with
        | inl hne2 => exact absurd hne2 hne
        | inr hall =>
          rw [if_neg hne] at hout
          cases hge : getEntry r.store msg.prevIndex with
          | none =>
            rw [hge] at hout
            simp only at hout
            cases hout
            exact ⟨rfl, rfl, dupAckMsg_false _ _, rfl⟩
          | some prev =>
            rw [hge] at hout
            simp only at hout
            rw [if_pos (hall prev hge)] at hout
            cases hout
            exact ⟨rfl, rfl, dupAckMsg_false _ _, rfl⟩
  · intro out ent hout hdata hpass hping
    unfold handleAppendEntry at hout
    cases hm : memberById r.node msg.src with
    | none =>
      rw [hm] at hout
      exact absurd hout (by simp)
    | some m0 =>
      rw [hm] at hout
      simp only at hout
      rw [hdata] at hout
      simp only at hout
      by_cases hgt : msg.prevIndex > r.store.commitIndex
      · rw [if_pos hgt] at hout
        have hnb : ¬ (msg.prevIndex ≠ r.store.lastIndex) := by
          intro hne
          exact hpass ⟨hgt, Or.inl hne⟩
        rw [if_neg hnb] at hout
        cases hge : getEntry r.store msg.prevIndex with
        | none =>
          exfalso
          apply hpass
          refine ⟨hgt, Or.inr ?_⟩
          intro prev hp
          rw [hge] at hp
          exact absurd hp (by simp)
        | some prev =>
          rw [hge] at hout
          simp only at hout
          by_cases hterm : prev.term ≠ msg.prevTerm
          · exfalso
            apply hpass
            refine ⟨hgt, Or.inr ?_⟩
            intro p hp
            rw [hge] at hp
            cases hp
            exact hterm
          · rw [if_neg hterm] at hout
            rw [if_pos hping] at hout
            have hb := C4ping_body _ msg ent out hout
            exact hb
      · rw [if_neg hgt] at hout
        rw [if_pos hping] at hout
        have hb := C4ping_body _ msg ent out hout
        exact hb
  · intro out ent hout hdata hpass hping hlt
    unfold handleAppendEntry at hout
    cases hm : memberById r.node msg.src with
    | none =>
      rw [hm] at hout
      exact absurd hout (by simp)
    | some m0 =>
      rw [hm] at hout
      simp only at hout
      rw [hdata] at hout
      simp only at hout
      by_cases hgt : msg.prevIndex > r.store.commitIndex
      · rw [if_pos hgt] at hout
        have hnb : ¬ (msg.prevIndex ≠ r.store.lastIndex) := by
          intro hne
          exact hpass ⟨hgt, Or.inl hne⟩
        rw [if_neg hnb] at hout
        cases hge : getEntry r.store msg.prevIndex with
        | none =>
          exfalso
          apply hpass
          refine ⟨hgt, Or.inr ?_⟩
          intro prev hp
          rw [hge] at hp
          exact absurd hp (by simp)
        | some prev =>
          rw [hge] at hout
          simp only at hout
          by_cases hterm : prev.term ≠ msg.prevTerm
          · exfalso
            apply hpass
            refine ⟨hgt, Or.inr ?_⟩
            intro p hp
            rw [hge] at hp
            cases hp
            exact hterm
          · rw [if_neg hterm] at hout
            rw [if_neg hping] at hout
            rw [if_pos hlt] at hout
            cases hout
            exact ⟨rfl, rfl, rfl⟩
      · rw [if_neg hgt] at hout
        rw [if_neg hping] at hout
        rw [if_pos hlt] at hout
        cases hout
        exact ⟨rfl, rfl, rfl⟩

/-- A follower with leader nL and an empty log. -/
def exFollower : Raft :=
  { node := { exNode with role := RoleType.follower, members := [{ exMemberB with id := "nL" }] },
    store := newStorage exDb }

/-- The first replicated entry. -/
def exEntry1 : Entry :=
  { term := 1, index := 1, commit := 0, type := EntryType.dataEntry, data := "x" }

/-- A well-formed AppendEntry from nL carrying exEntry1. -/
def exAeMsg : Message :=
  { type := MessageType.appendEntry, src := "nL", dst := "n1", term := 1,
    prevTerm := 0, prevIndex := 0, data := MsgData.ent exEntry1 }

/-- The same frame with a mismatched prev hint. -/
def exAeBad : Message := { exAeMsg with prevIndex := 5, prevTerm := 2 }

/-- A heartbeat frame from nL. -/
def exPingMsg : Message := { exAeMsg with data := MsgData.ent (newPingEntry 0) }

/-- Witness for C4: the mismatched frame leaves storage untouched with no
commit, and the Ping is acked with commit driven at its commit field and no
log write. -/
theorem C4_handleAppendEntry_spec_witness :
    (((handleAppendEntry exFollower exAeBad).getD exStepOutDummy).raft.store = exFollower.store ∧
     ((handleAppendEntry exFollower exAeBad).getD exStepOutDummy).commits = []) ∧
    (((handleAppendEntry exFollower exPingMsg).getD exStepOutDummy).commits = [0] ∧
     ((handleAppendEntry exFollower exPingMsg).getD exStepOutDummy).raft.store.entries = exFollower.store.entries) := by
  have h1 := (C4_handleAppendEntry_spec exFollower exAeBad).1
    ((handleAppendEntry exFollower exAeBad).getD exStepOutDummy) (by decide)
    ⟨by decide, Or.inl (by decide)⟩
  have h2 := (C4_handleAppendEntry_spec exFollower exPingMsg).2.1
    ((handleAppendEntry exFollower exPingMsg).getD exStepOutDummy) (newPingEntry 0)
    (by decide) rfl (fun hc => absurd hc.1 (by decide)) rfl
  exact ⟨⟨h1.1, h1.2.2.2⟩, ⟨h2.1, h2.2.1⟩⟩

/- ### Storage load reconstruction -/

/-- Counterexample to C6 as stated: write entries 1 and 2, commit only 1
and Fsync; on reload the code computes commitIndex from the maximum stored
index, giving 2, which exceeds the pre-shutdown commitIndex 1. -/
theorem C6_commit_restore_counterexample :
    (commitEntry exR2 1).map
      (fun r3 => (r3.store.commitIndex, (newStorage r3.store.db).commitIndex)) =
      some (1, 2) ∧
    ¬ ((2 : Int) ≤ 1) := by
  exact ⟨by decide, by decide⟩

theorem foldl_max_init_le (key : Int × Entry → Int) (l : List (Int × Entry)) :
    ∀ a : Int, a ≤ l.foldl (fun acc p => max acc (key p)) a := by
  induction l with
  | nil => intro a; simp
  | cons q rest ih =>
    intro a
    calc a ≤ max a (key q) := le_max_left a (key q)
    _ ≤ rest.foldl (fun acc p => max acc (key p)) (max a (key q)) := ih _

theorem foldl_max_mem_le (key : Int × Entry → Int) (l : List (Int × Entry)) :
    ∀ a : Int, ∀ p ∈ l, key p ≤ l.foldl (fun acc p => max acc (key p)) a := by
  induction l with
  | nil => intro a p hp; simp at hp
  | cons q rest ih =>
    intro a p hp
    cases List.mem_cons.mp hp with
    | inl hq =>
      subst hq
      calc key p ≤ max a (key p) := le_max_right a (key p)
      _ ≤ rest.foldl (fun acc p2 => max acc (key p2)) (max a (key p)) :=
        foldl_max_init_le key rest _
    | inr hr => exact ih (max a (key q)) p hr

theorem foldl_max_cases (key : Int × Entry → Int) (l : List (Int × Entry)) :
    ∀ a : Int, l.foldl (fun acc p => max acc (key p)) a = a ∨
      ∃ p ∈ l, l.foldl (fun acc p => max acc (key p)) a = key p := by
  induction l with
  | nil => intro a; exact Or.inl rfl
  | cons q rest ih =>
    intro a
    cases ih (max a (key q)) with
    | inl h =>
      cases max_choice a (key q) with
      | inl hm =>
        left
        simp only [List.foldl_cons]
        rw [h, hm]
      | inr hm =>
        right
        refine ⟨q, List.mem_cons_self q rest, ?_⟩
        simp only [List.foldl_cons]
        rw [h, hm]
    | inr h =>
      obtain ⟨p, hp, he⟩ := h
      exact Or.inr ⟨p, List.mem_cons_of_mem q hp, he⟩

theorem foldl_min_init_ge (key : Int × Entry → Int) (l : List (Int × Entry)) :
    ∀ a : Int, l.foldl (fun acc p => min acc (key p)) a ≤ a := by
  induction l with
  | nil => intro a; simp
  | cons q rest ih =>
    intro a
    calc rest.foldl (fun acc p => min acc (key p)) (min a (key q)) ≤ min a (key q) := ih _
    _ ≤ a := min_le_left a (key q)

theorem foldl_min_mem_ge (key : Int × Entry → Int) (l : List (Int × Entry)) :
    ∀ a : Int, ∀ p ∈ l, l.foldl (fun acc p => min acc (key p)) a ≤ key p := by
  induction l with
  | nil => intro a p hp; simp at hp
  | cons q rest ih =>
    intro a p hp
    cases List.mem_cons.mp hp with
    | inl hq =>
      subst hq
      calc rest.foldl (fun acc p2 => min acc (key p2)) (min a (key p)) ≤ min a (key p) :=
        foldl_min_init_ge key rest _
      _ ≤ key p := min_le_right a (key p)
    | inr hr => exact ih (min a (key q)) p hr

theorem foldl_min_cases (key : Int × Entry → Int) (l : List (Int × Entry)) :
    ∀ a : Int, l.foldl (fun acc p => min acc (key p)) a = a ∨
      ∃ p ∈ l, l.foldl (fun acc p => min acc (key p)) a = key p := by
  induction l with
  | nil => intro a; exact Or.inl rfl
  | cons q rest ih =>
    intro a
    cases ih (min a (key q)) with
    | inl h =>
      cases min_choice a (key q) with
      | inl hm =>
        left
        simp only [List.foldl_cons]
        rw [h, hm]
      | inr hm =>
        right
        refine ⟨q, List.mem_cons_self q rest, ?_⟩
        simp only [List.foldl_cons]
        rw [h, hm]
    | inr h =>
      obtain ⟨p, hp, he⟩ := h
      exact Or.inr ⟨p, List.mem_cons_of_mem q hp, he⟩

theorem loadFold_lastIndex (l : List (Int × Entry)) :
    ∀ st : Storage, (l.foldl loadStep st).lastIndex =
      l.foldl (fun acc p => max acc p.2.index) st.lastIndex := by
  induction l with
  | nil => intro st; rfl
  | cons q rest ih =>
    intro st
    simp only [List.foldl_cons]
    rw [ih]
    rfl

theorem loadFold_firstIndex (l : List (Int × Entry)) :
    ∀ st : Storage, (l.foldl loadStep st).firstIndex =
      l.foldl (fun acc p => min acc p.2.index) st.firstIndex := by
  induction l with
  | nil => intro st; rfl
  | cons q rest ih =>
    intro st
    simp only [List.foldl_cons]
    rw [ih]
    rfl

theorem loadFold_lastTerm (l : List (Int × Entry)) :
    ∀ st : Storage, (l.foldl loadStep st).lastTerm =
      l.foldl (fun acc p => max acc p.2.term) st.lastTerm := by
  induction l with
  | nil => intro st; rfl
  | cons q rest ih =>
    intro st
    simp only [List.foldl_cons]
    rw [ih]
    rfl

theorem loadFold_commit_eq_last (l : List (Int × Entry)) (hne : l ≠ []) :
    ∀ st : Storage, (l.foldl loadStep st).commitIndex = (l.foldl loadStep st).lastIndex := by
  induction l with
  | nil => exact absurd rfl hne
  | cons q rest ih =>
    intro st
    by_cases hr : rest = []
    · subst hr
      simp only [List.foldl_cons, List.foldl_nil]
      rfl
    · simp only [List.foldl_cons]
      exact ih hr (loadStep st q)

/-- The claim C6, amended: loadEntries reconstructs firstIndex as the least
stored index, lastIndex as the greatest, lastTerm as the greatest stored term
(the term at lastIndex once terms are nondecreasing in index), and sets
commitIndex to lastIndex — the maximum stored index, not a persisted commit
value; so the reloaded commitIndex never falls below, but can exceed, the
pre-shutdown commitIndex. -/
theorem C6_load_reconstruction (db : Db) (hne : db.logs ≠ [])
    (hidx : ∀ p ∈ db.logs, 1 ≤ p.2.index ∧ p.2.index ≤ 2 ^ 63 - 1)
    (hterm : ∀ p ∈ db.logs, 1 ≤ p.2.term) :
    ((∀ p ∈ db.logs, p.2.index ≤ (newStorage db).lastIndex) ∧
     (∃ p ∈ db.logs, (newStorage db).lastIndex = p.2.index)) ∧
    ((∀ p ∈ db.logs, (newStorage db).firstIndex ≤ p.2.index) ∧
     (∃ p ∈ db.logs, (newStorage db).firstIndex = p.2.index)) ∧
    ((∀ p ∈ db.logs, p.2.term ≤ (newStorage db).lastTerm) ∧
     (∃ p ∈ db.logs, (newStorage db).lastTerm = p.2.term)) ∧
    (newStorage db).commitIndex = (newStorage db).lastIndex := by
  obtain ⟨q, hq⟩ := List.exists_mem_of_ne_nil db.logs hne
  have hlogs : (loadState (freshStorage db)).db.logs = db.logs := by
    unfold loadState freshStorage
    split <;> rfl
  have hL : (loadState (freshStorage db)).lastIndex = 0 := by
    unfold loadState freshStorage
    split <;> rfl
  have hF : (loadState (freshStorage db)).firstIndex = 2 ^ 63 - 1 := by
    unfold loadState freshStorage
    split <;> rfl
  have hT : (loadState (freshStorage db)).lastTerm = 0 := by
    unfold loadState freshStorage
    split <;> rfl
  refine ⟨⟨?_, ?_⟩, ⟨?_, ?_⟩, ⟨?_, ?_⟩, ?_⟩
  · intro p hp
    unfold newStorage loadEntries
    rw [hlogs, loadFold_lastIndex, hL]
    exact foldl_max_mem_le (fun p => p.2.index) db.logs 0 p hp
  · unfold newStorage loadEntries
    rw [hlogs, loadFold_lastIndex, hL]
    cases foldl_max_cases (fun p => p.2.index) db.logs 0 with
    | inl h =>
      exfalso
      have h1 := foldl_max_mem_le (fun p => p.2.index) db.logs 0 q hq
      have h2 := (hidx q hq).1
      simp only at h h1 h2
      omega
    | inr h => exact h
  · intro p hp
    unfold newStorage loadEntries
    rw [hlogs, loadFold_firstIndex, hF]
    exact foldl_min_mem_ge (fun p => p.2.index) db.logs (2 ^ 63 - 1) p hp
  · unfold newStorage loadEntries
    rw [hlogs, loadFold_firstIndex, hF]
    cases foldl_min_cases (fun p => p.2.index) db.logs (2 ^ 63 - 1) with
    | inl h =>
      refine ⟨q, hq, ?_⟩
      have h1 := foldl_min_mem_ge (fun p => p.2.index) db.logs (2 ^ 63 - 1) q hq
      have h2 := (hidx q hq).2
      simp only at h h1 h2
      omega
    | inr h => exact h
  · intro p hp
    unfold newStorage loadEntries
    rw [hlogs, loadFold_lastTerm, hT]
    exact foldl_max_mem_le (fun p => p.2.term) db.logs 0 p hp
  · unfold newStorage loadEntries
    rw [hlogs, loadFold_lastTerm, hT]
    cases foldl_max_cases (fun p => p.2.term) db.logs 0 with
    | inl h =>
      exfalso
      have h1 := foldl_max_mem_le (fun p => p.2.term) db.logs 0 q hq
      have h2 := hterm q hq
      simp only at h h1 h2
      omega
    | inr h => exact h
  · unfold newStorage loadEntries
    rw [hlogs]
    exact loadFold_commit_eq_last db.logs hne _

/-- Witness for the amended C6: reloading the two-entry Db yields
commitIndex = lastIndex, attained at a stored entry. -/
theorem C6_load_reconstruction_witness :
    (newStorage exR2.store.db).commitIndex = (newStorage exR2.store.db).lastIndex ∧
    ∃ p ∈ exR2.store.db.logs, (newStorage exR2.store.db).lastIndex = p.2.index := by
  have h := C6_load_reconstruction exR2.store.db (by decide) (by decide) (by decide)
  exact ⟨h.2.2.2, h.1.2⟩

/-- Witness for C10: a self-join is a no-op, and the peerless follower's
join wipes commit progress and lands in the Follower role. -/
theorem C10_joinGroup_spec_witness :
    joinGroup exFreshFollower "n1" "aL" = exFreshFollower ∧
    (joinGroup exSolo "nL" "aL").store.commitIndex = 0 ∧
    (joinGroup exSolo "nL" "aL").node.role = RoleType.follower := by
  have h1 := (C10_joinGroup_spec exFreshFollower "n1" "aL").1 (by decide)
  have h2 := (C10_joinGroup_spec exSolo "nL" "aL").2.2 (by decide) (by decide)
  exact ⟨h1, h2.2.2.2.2.2.1, h2.2.2.2.2.1⟩

end raft

/-!
Wire codecs of src/unnamed/part_000 (Entry.Encode/Decode) and
src/unnamed/part_002 (EncodeMessage/DecodeMessage).  Go strings are modelled
as `List Char`; `fmt.Sprintf %d` as decimal printing; `strings.SplitN`,
`strings.Trim` and the numeric parsers are translated below.
-/

namespace wire

/-- The decimal digit characters of `%d` formatting. -/
def digitChar (d : Nat) : Char :=
  match d with
  | 0 => '0'
  | 1 => '1'
  | 2 => '2'
  | 3 => '3'
  | 4 => '4'
  | 5 => '5'
  | 6 => '6'
  | 7 => '7'
  | 8 => '8'
  | _ => '9'

/-- Numeric value of a digit character. -/
def charVal (c : Char) : Nat := c.toNat - 48

/-- Decimal printing of a natural number, most significant digit first
(`%d` of a non-negative value); the fuel only bounds the digit count. -/
def printNatAux : Nat → Nat → List Char → List Char
  | 0, _, acc => acc
  | fuel + 1, n, acc =>
    if n < 10 then digitChar n :: acc
    else printNatAux fuel (n / 10) (digitChar (n % 10) :: acc)

/-- Go `%d` / `strconv` canonical decimal form of a natural number. -/
def printNat (n : Nat) : List Char := printNatAux (n + 1) n []

/-- Go `%d` of a signed value: a minus sign followed by the magnitude. -/
def printInt (i : Int) : List Char :=
  if i < 0 then '-' :: printNat (-i).toNat else printNat i.toNat

/-- Digit-by-digit accumulation of `strconv` parsing; any non-digit is a
syntax error. -/
def parseDigitsAux : List Char → Nat → Option Nat
  | [], acc => some acc
  | c :: cs, acc =>
    if c.isDigit then parseDigitsAux cs (acc * 10 + charVal c) else none

/-- Parse an unsigned decimal; the empty string is a syntax error. -/
def parseDigits (s : List Char) : Option Nat :=
  match s with
  | [] => none
  | _ => parseDigitsAux s 0

/-- Modelled from the spec: myutil.Atoi32/Atoi64 are absent from src. They
wrap strconv.ParseInt with the error ignored: a signed decimal parse that
yields 0 on malformed input (range clamping is immaterial here because every
encoded value is in range). -/
def parseInt (s : List Char) : Int :=
  match s with
  | '-' :: rest =>
    match parseDigits rest with
    | some n => -(n : Int)
    | none => 0
  | _ =>
    match parseDigits s with
    | some n => (n : Int)
    | none => 0

/-- The `atou` of part_002: strconv.ParseUint(s, 10, 64) with the error
ignored — 0 on a syntax error, clamped to 2^64 − 1 on range overflow. -/
def parseU64 (s : List Char) : Nat :=
  match parseDigits s with
  | none => 0
  | some n => if n < 2 ^ 64 then n else 2 ^ 64 - 1

theorem digitChar_isDigit (d : Nat) : (digitChar d).isDigit = true := by
  unfold digitChar
  split <;> decide

theorem charVal_digitChar (d : Nat) (h : d < 10) : charVal (digitChar d) = d := by
  interval_cases d <;> decide

theorem isDigit_ne (c : Char) (h : c.isDigit = true) :
    c ≠ ' ' ∧ c ≠ '\r' ∧ c ≠ '\n' ∧ c ≠ '-' := by
  refine ⟨?_, ?_, ?_, ?_⟩ <;> intro hc <;> subst hc <;> exact absurd h (by decide)

theorem printNatAux_acc (fuel : Nat) :
    ∀ n acc, printNatAux fuel n acc = printNatAux fuel n [] ++ acc := by
  induction fuel with
  | zero => intro n acc; rfl
  | succ fuel ih =>
    intro n acc
    unfold printNatAux
    by_cases h : n < 10
    · simp [h]
    · rw [if_neg h, if_neg h, ih (n / 10) (digitChar (n % 10) :: acc),
          ih (n / 10) [digitChar (n % 10)]]
      simp

theorem printNatAux_fuel (fuel : Nat) :
    ∀ n acc, n < fuel → printNatAux fuel n acc = printNatAux (n + 1) n acc := by
  induction fuel using Nat.strong_induction_on with
  | _ fuel ih =>
    intro n acc h
    match fuel, h with
    | fuel + 1, h =>
      by_cases h10 : n < 10
      · conv_lhs => unfold printNatAux
        conv_rhs => unfold printNatAux
        simp [h10]
      · have hdiv : n / 10 < n := Nat.div_lt_self (by omega) (by omega)
        conv_lhs => unfold printNatAux
        conv_rhs => unfold printNatAux
        rw [if_neg h10, if_neg h10]
        rw [ih fuel (by omega) (n / 10) _ (by omega)]
        rw [ih n (by omega) (n / 10) _ (by omega)]

theorem printNat_lt10 (n : Nat) (h : n < 10) : printNat n = [digitChar n] := by
  unfold printNat printNatAux
  simp [h]

theorem printNat_ge10 (n : Nat) (h : ¬ n < 10) :
    printNat n = printNat (n / 10) ++ [digitChar (n % 10)] := by
  have hdiv : n / 10 < n := Nat.div_lt_self (by omega) (by omega)
  unfold printNat
  conv_lhs => unfold printNatAux
  rw [if_neg h]
  rw [printNatAux_fuel n (n / 10) _ hdiv]
  rw [printNatAux_acc (n / 10 + 1) (n / 10) [digitChar (n % 10)]]

theorem printNat_ne_nil (n : Nat) : printNat n ≠ [] := by
  by_cases h : n < 10
  · rw [printNat_lt10 n h]
    simp
  · rw [printNat_ge10 n h]
    simp

theorem printNat_digits (n : Nat) : ∀ c ∈ printNat n, c.isDigit = true := by
  induction n using Nat.strong_induction_on with
  | _ n ih =>
    by_cases h : n < 10
    · rw [printNat_lt10 n h]
      intro c hc
      rw [List.mem_singleton.mp hc]
      exact digitChar_isDigit n
    · rw [printNat_ge10 n h]
      intro c hc
      cases List.mem_append.mp hc with
      | inl h1 => exact ih (n / 10) (Nat.div_lt_self (by omega) (by omega)) c h1
      | inr h2 =>
        rw [List.mem_singleton.mp h2]
        exact digitChar_isDigit (n % 10)

theorem parse_print_concat (n : Nat) :
    ∀ rest accv, parseDigitsAux (printNat n ++ rest) accv =
      parseDigitsAux rest (accv * 10 ^ (printNat n).length + n) := by
  induction n using Nat.strong_induction_on with
  | _ n ih =>
    intro rest accv
    by_cases h : n < 10
    · rw [printNat_lt10 n h]
      simp only [List.singleton_append, List.length_singleton, parseDigitsAux]
      rw [if_pos (digitChar_isDigit n), charVal_digitChar n h]
      simp [pow_one]
    · rw [printNat_ge10 n h]
      have hdiv : n / 10 < n := Nat.div_lt_self (by omega) (by omega)
      rw [List.append_assoc, List.singleton_append]
      rw [ih (n / 10) hdiv]
      simp only [parseDigitsAux]
      rw [if_pos (digitChar_isDigit (n % 10)), charVal_digitChar (n % 10) (by omega)]
      rw [List.length_append, List.length_singleton]
      congr 1
      rw [pow_succ]
      ring_nf
      omega

theorem parseDigits_printNat (n : Nat) : parseDigits (printNat n) = some n := by
  have hne := printNat_ne_nil n
  have hmain := parse_print_concat n [] 0
  rw [List.append_nil] at hmain
  simp only [parseDigitsAux, zero_mul, zero_add] at hmain
  unfold parseDigits
  match hpn : printNat n, hne with
  | c :: cs, _ =>
    rw [hpn] at hmain
    exact hmain

theorem printNat_no_minus (n : Nat) : '-' ∉ printNat n := by
  intro hm
  exact absurd (printNat_digits n '-' hm) (by decide)

theorem parseInt_printInt (i : Int) : parseInt (printInt i) = i := by
  by_cases h : i < 0
  · unfold printInt
    rw [if_pos h]
    show (match parseDigits (printNat (-i).toNat) with
          | some n => -(n : Int)
          | none => 0) = i
    rw [parseDigits_printNat]
    show -(((-i).toNat : Int)) = i
    rw [Int.toNat_of_nonneg (by omega)]
    omega
  · unfold printInt
    rw [if_neg h]
    unfold parseInt
    split
    · rename_i rest heq
      exfalso
      apply printNat_no_minus i.toNat
      rw [heq]
      exact List.mem_cons_self _ _
    · rw [parseDigits_printNat]
      show ((i.toNat : Int)) = i
      rw [Int.toNat_of_nonneg (by omega)]

theorem printNat_no_space (n : Nat) : ' ' ∉ printNat n := by
  intro hm
  exact absurd (printNat_digits n ' ' hm) (by decide)

theorem printInt_no_space (i : Int) : ' ' ∉ printInt i := by
  unfold printInt
  split
  · intro hm
    cases List.mem_cons.mp hm with
    | inl h1 => exact absurd h1 (by decide)
    | inr h2 => exact printNat_no_space _ h2
  · exact printNat_no_space _

/-- CR/LF membership test, the cutset of `strings.Trim(s, "\r\n")`. -/
def isCRLF (c : Char) : Bool := c = '\r' || c = '\n'

theorem printInt_head_not_crlf (i : Int) :
    ∀ c, (printInt i).head? = some c → isCRLF c = false := by
  unfold printInt
  split
  · intro c hc
    simp only [List.head?_cons, Option.some.injEq] at hc
    rw [← hc]
    decide
  · intro c hc
    have hmem : c ∈ printNat i.toNat := by
      cases hpn : printNat i.toNat with
      | nil => rw [hpn] at hc; simp at hc
      | cons x xs =>
        rw [hpn] at hc
        simp only [List.head?_cons, Option.some.injEq] at hc
        rw [← hc]
        exact List.mem_cons_self x xs
    have hd := printNat_digits i.toNat c hmem
    have := isDigit_ne c hd
    unfold isCRLF
    simp [this.2.1, this.2.2.1]

/-- First-occurrence search of strings.SplitN: the part before the first
separator and the remainder after it, or none. -/
def breakOn (c : Char) : List Char → Option (List Char × List Char)
  | [] => none
  | x :: xs =>
    if x = c then some ([], xs)
    else
      match breakOn c xs with
      | none => none
      | some p => some (x :: p.1, p.2)

/-- strings.SplitN(s, sep, n) for a single-character separator: at most n
parts, the last unsplit. -/
def splitN (c : Char) : Nat → List Char → List (List Char)
  | 0, _ => []
  | 1, s => [s]
  | n + 2, s =>
    match breakOn c s with
    | none => [s]
    | some p => p.1 :: splitN c (n + 1) p.2

theorem breakOn_append (c : Char) (a b : List Char) (ha : c ∉ a) :
    breakOn c (a ++ c :: b) = some (a, b) := by
  induction a with
  | nil =>
    simp [breakOn]
  | cons x xs ih =>
    have hxc : ¬ x = c := fun hx => ha (hx ▸ List.mem_cons_self x xs)
    have ih2 := ih (fun hm => ha (List.mem_cons_of_mem x hm))
    simp [breakOn, hxc, ih2]

theorem splitN_cons (c : Char) (n : Nat) (a b : List Char) (ha : c ∉ a) :
    splitN c (n + 2) (a ++ c :: b) = a :: splitN c (n + 1) b := by
  conv_lhs => unfold splitN
  rw [breakOn_append c a b ha]

/-- Right trim of strings.Trim. -/
def trimRight (p : Char → Bool) (s : List Char) : List Char :=
  (s.reverse.dropWhile p).reverse

/-- strings.Trim(s, cutset): drop cutset characters from both ends. -/
def trimChars (p : Char → Bool) (s : List Char) : List Char :=
  trimRight p (s.dropWhile p)

theorem dropWhile_eq_self (p : Char → Bool) (s : List Char)
    (h : ∀ c, s.head? = some c → p c = false) : s.dropWhile p = s := by
  cases s with
  | nil => rfl
  | cons x xs =>
    have hx := h x rfl
    simp [List.dropWhile_cons, hx]

theorem trimChars_eq_self (p : Char → Bool) (s : List Char)
    (hh : ∀ c, s.head? = some c → p c = false)
    (hl : ∀ c, s.getLast? = some c → p c = false) : trimChars p s = s := by
  unfold trimChars trimRight
  rw [dropWhile_eq_self p s hh]
  rw [dropWhile_eq_self p s.reverse (fun c hc => hl c (by rwa [List.head?_reverse] at hc))]
  exact List.reverse_reverse s

theorem printInt_ne_nil (i : Int) : printInt i ≠ [] := by
  unfold printInt
  split
  · simp
  · exact printNat_ne_nil _

theorem parseU64_printNat (n : Nat) (h : n < 2 ^ 64) : parseU64 (printNat n) = n := by
  unfold parseU64
  rw [parseDigits_printNat]
  show (if n < 2 ^ 64 then n else 2 ^ 64 - 1) = n
  rw [if_pos h]

/-- The Entry record of src/unnamed/part_000: term, index, commitIndex, a
type tag string and an opaque payload. -/
structure WEntry where
  term : Int
  index : Int
  commitIndex : Int
  type : List Char
  data : List Char
deriving DecidableEq, Repr

/-- Entry.Encode: `%d %d %d %s %s`. -/
def wentryEncode (e : WEntry) : List Char :=
  printInt e.term ++ ' ' :: (printInt e.index ++ ' ' ::
    (printInt e.commitIndex ++ ' ' :: (e.type ++ ' ' :: e.data)))

/-- Entry.Decode: trim CR/LF, SplitN(5), require exactly five parts. -/
def wentryDecode (buf : List Char) : Option WEntry :=
  match splitN ' ' 5 (trimChars isCRLF buf) with
  | [a, b, c, d, e] =>
    some { term := parseInt a, index := parseInt b, commitIndex := parseInt c,
           type := d, data := e }
  | _ => none

theorem wentryEncode_head (e : WEntry) :
    ∀ c, (wentryEncode e).head? = some c → isCRLF c = false := by
  intro c hc
  unfold wentryEncode at hc
  cases hpi : printInt e.term with
  | nil => exact absurd hpi (printInt_ne_nil e.term)
  | cons x xs =>
    rw [hpi] at hc
    simp only [List.cons_append, List.head?_cons, Option.some.injEq] at hc
    rw [← hc]
    apply printInt_head_not_crlf e.term
    rw [hpi]
    rfl

theorem getLast?_cons_append_cons (x : Char) (B : List Char) (y : Char) (R : List Char) :
    (x :: (B ++ y :: R)).getLast? = (y :: R).getLast? := by
  rw [← List.cons_append]
  exact List.getLast?_append_cons (x :: B) y R

theorem wentryEncode_last (e : WEntry)
    (hdata : ∀ c, e.data.getLast? = some c → isCRLF c = false) :
    ∀ c, (wentryEncode e).getLast? = some c → isCRLF c = false := by
  intro c hc
  unfold wentryEncode at hc
  rw [List.getLast?_append_cons, getLast?_cons_append_cons,
      getLast?_cons_append_cons, getLast?_cons_append_cons] at hc
  cases hd : e.data with
  | nil =>
    rw [hd] at hc
    simp only [List.getLast?_singleton, Option.some.injEq] at hc
    rw [← hc]
    decide
  | cons d ds =>
    rw [hd, List.getLast?_cons_cons] at hc
    apply hdata
    rw [hd]
    exact hc

/-- Round trip of the part_000 Entry codec, for entries whose type tag is
space-free and whose payload does not end in CR or LF. -/
theorem wentryDecode_encode (e : WEntry) (htype : ' ' ∉ e.type)
    (hdata : ∀ c, e.data.getLast? = some c → isCRLF c = false) :
    wentryDecode (wentryEncode e) = some e := by
  unfold wentryDecode
  rw [trimChars_eq_self isCRLF (wentryEncode e) (wentryEncode_head e)
    (wentryEncode_last e hdata)]
  have h5 : (5 : Nat) = 3 + 2 := rfl
  have h4 : (3 + 1 : Nat) = 2 + 2 := rfl
  have h3 : (2 + 1 : Nat) = 1 + 2 := rfl
  have h2 : (1 + 1 : Nat) = 0 + 2 := rfl
  unfold wentryEncode
  rw [h5, splitN_cons ' ' 3 _ _ (printInt_no_space e.term)]
  rw [h4, splitN_cons ' ' 2 _ _ (printInt_no_space e.index)]
  rw [h3, splitN_cons ' ' 1 _ _ (printInt_no_space e.commitIndex)]
  rw [h2, splitN_cons ' ' 0 _ _ htype]
  simp [splitN, parseInt_printInt]

/-- The Message record of src/unnamed/part_002: cmd, src, dst, a uint64
index, a uint32 term, and an opaque payload. -/
structure WMessage where
  cmd : List Char
  src : List Char
  dst : List Char
  index : Nat
  term : Nat
  data : List Char
deriving DecidableEq, Repr

/-- EncodeMessage: join of [cmd, src, dst, utoa(index), utoa(term), data]
with single spaces. -/
def wmessageEncode (m : WMessage) : List Char :=
  m.cmd ++ ' ' :: (m.src ++ ' ' :: (m.dst ++ ' ' ::
    (printNat m.index ++ ' ' :: (printNat m.term ++ ' ' :: m.data))))

/-- DecodeMessage: trim CR/LF, SplitN(6), require exactly six parts; the
term field passes through uint32 truncation. -/
def wmessageDecode (buf : List Char) : Option WMessage :=
  match splitN ' ' 6 (trimChars isCRLF buf) with
  | [c0, c1, c2, c3, c4, c5] =>
    some { cmd := c0, src := c1, dst := c2, index := parseU64 c3,
           term := parseU64 c4 % 2 ^ 32, data := c5 }
  | _ => none

theorem wmessageEncode_head (m : WMessage)
    (hcmd : ∀ c, m.cmd.head? = some c → isCRLF c = false) :
    ∀ c, (wmessageEncode m).head? = some c → isCRLF c = false := by
  intro c hc
  unfold wmessageEncode at hc
  cases hcm : m.cmd with
  | nil =>
    rw [hcm] at hc
    simp only [List.nil_append, List.head?_cons, Option.some.injEq] at hc
    rw [← hc]
    decide
  | cons x xs =>
    rw [hcm] at hc
    simp only [List.cons_append, List.head?_cons, Option.some.injEq] at hc
    rw [← hc]
    apply hcmd
    rw [hcm]
    rfl

theorem wmessageEncode_last (m : WMessage)
    (hdata : ∀ c, m.data.getLast? = some c → isCRLF c = false) :
    ∀ c, (wmessageEncode m).getLast? = some c → isCRLF c = false := by
  intro c hc
  unfold wmessageEncode at hc
  rw [List.getLast?_append_cons, getLast?_cons_append_cons, getLast?_cons_append_cons,
      getLast?_cons_append_cons, getLast?_cons_append_cons] at hc
  cases hd : m.data with
  | nil =>
    rw [hd] at hc
    simp only [List.getLast?_singleton, Option.some.injEq] at hc
    rw [← hc]
    decide
  | cons d ds =>
    rw [hd, List.getLast?_cons_cons] at hc
    apply hdata
    rw [hd]
    exact hc

/-- Round trip of the part_002 Message codec, for messages whose cmd, src and
dst tokens are space-free, whose cmd does not begin with CR/LF, whose payload
does not end in CR/LF, and whose numeric fields are in uint64/uint32 range. -/
theorem wmessageDecode_encode (m : WMessage)
    (hcmdsp : ' ' ∉ m.cmd) (hsrc : ' ' ∉ m.src) (hdst : ' ' ∉ m.dst)
    (hcmd : ∀ c, m.cmd.head? = some c → isCRLF c = false)
    (hdata : ∀ c, m.data.getLast? = some c → isCRLF c = false)
    (hidx : m.index < 2 ^ 64) (hterm : m.term < 2 ^ 32) :
    wmessageDecode (wmessageEncode m) = some m := by
  unfold wmessageDecode
  rw [trimChars_eq_self isCRLF (wmessageEncode m) (wmessageEncode_head m hcmd)
    (wmessageEncode_last m hdata)]
  have h6 : (6 : Nat) = 4 + 2 := rfl
  have h5 : (4 + 1 : Nat) = 3 + 2 := rfl
  have h4 : (3 + 1 : Nat) = 2 + 2 := rfl
  have h3 : (2 + 1 : Nat) = 1 + 2 := rfl
  have h2 : (1 + 1 : Nat) = 0 + 2 := rfl
  unfold wmessageEncode
  rw [h6, splitN_cons ' ' 4 _ _ hcmdsp]
  rw [h5, splitN_cons ' ' 3 _ _ hsrc]
  rw [h4, splitN_cons ' ' 2 _ _ hdst]
  rw [h3, splitN_cons ' ' 1 _ _ (printNat_no_space m.index)]
  rw [h2, splitN_cons ' ' 0 _ _ (printNat_no_space m.term)]
  simp only [splitN]
  rw [parseU64_printNat m.index hidx, parseU64_printNat m.term (by omega)]
  rw [Nat.mod_eq_of_lt hterm]

/-- Length-prefixed field: the blob length in decimal, a space, the blob.
Building block of the spec-modelled State/Snapshot encodings. -/
def encodeStr (s : List Char) : List Char := printNat s.length ++ ' ' :: s

/-- Read one length-prefixed field, returning it and the remaining input. -/
def decodeStr (s : List Char) : Option (List Char × List Char) :=
  match breakOn ' ' s with
  | none => none
  | some p =>
    match parseDigits p.1 with
    | none => none
    | some n => if n ≤ p.2.length then some (p.2.take n, p.2.drop n) else none

theorem decodeStr_encodeStr (s rest : List Char) :
    decodeStr (encodeStr s ++ rest) = some (s, rest) := by
  unfold decodeStr encodeStr
  rw [List.append_assoc, List.cons_append,
      breakOn_append ' ' (printNat s.length) (s ++ rest) (printNat_no_space s.length)]
  simp only [parseDigits_printNat]
  rw [if_pos (by simp)]
  rw [List.take_left, List.drop_left]

/-- One member pair of the spec-modelled State encoding. -/
def encodePair (p : List Char × List Char) : List Char :=
  encodeStr p.1 ++ encodeStr p.2

/-- Read `n` member pairs. -/
def decodePairs : Nat → List Char → Option (List (List Char × List Char) × List Char)
  | 0, s => some ([], s)
  | n + 1, s =>
    match decodeStr s with
    | none => none
    | some kv =>
      match decodeStr kv.2 with
      | none => none
      | some vv =>
        match decodePairs n vv.2 with
        | none => none
        | some pr => some ((kv.1, vv.1) :: pr.1, pr.2)

theorem decodePairs_encode (l : List (List Char × List Char)) :
    ∀ rest, decodePairs l.length ((l.map encodePair).flatten ++ rest) = some (l, rest) := by
  induction l with
  | nil => intro rest; simp [decodePairs]
  | cons p ps ih =>
    intro rest
    simp only [List.map_cons, List.flatten_cons, List.length_cons, decodePairs, encodePair,
               List.append_assoc, decodeStr_encodeStr, ih]

/-- Modelled from the spec: State.go is absent from src.  The State wire form
is an opaque single-line blob carrying term, voteFor and the member map,
round-trippable through Encode/Decode (spec §6); here as length-prefixed
fields with a count-prefixed pair list. -/
structure WState where
  term : Int
  voteFor : List Char
  members : List (List Char × List Char)
deriving DecidableEq, Repr

/-- State.Encode (spec-modelled). -/
def wstateEncode (st : WState) : List Char :=
  encodeStr (printInt st.term) ++ (encodeStr st.voteFor ++
    (encodeStr (printNat st.members.length) ++ (st.members.map encodePair).flatten))

/-- State.Decode returning the unread suffix (spec-modelled). -/
def wstateDecodeAux (s : List Char) : Option (WState × List Char) :=
  match decodeStr s with
  | none => none
  | some tb =>
    match decodeStr tb.2 with
    | none => none
    | some vb =>
      match decodeStr vb.2 with
      | none => none
      | some cb =>
        match parseDigits cb.1 with
        | none => none
        | some cnt =>
          match decodePairs cnt cb.2 with
          | none => none
          | some pr =>
            some ({ term := parseInt tb.1, voteFor := vb.1, members := pr.1 }, pr.2)

/-- State.Decode (spec-modelled): trailing input such as CR/LF is ignored. -/
def wstateDecode (s : List Char) : Option WState :=
  match wstateDecodeAux s with
  | none => none
  | some p => some p.1

theorem wstateDecodeAux_encode (st : WState) (rest : List Char) :
    wstateDecodeAux (wstateEncode st ++ rest) = some (st, rest) := by
  unfold wstateDecodeAux wstateEncode
  simp only [List.append_assoc, decodeStr_encodeStr, parseDigits_printNat,
             decodePairs_encode, parseInt_printInt]

theorem wstateDecode_encode (st : WState) :
    wstateDecode (wstateEncode st) = some st := by
  unfold wstateDecode
  rw [show wstateEncode st = wstateEncode st ++ [] from (List.append_nil _).symm,
      wstateDecodeAux_encode]

/-- Modelled from the spec: Snapshot.go is absent from src.  A self-contained
snapshot blob: state, lastTerm, lastIndex and a count-prefixed entry suffix
(spec §3), with each entry carried as length-prefixed fields. -/
structure WSnapshot where
  state : WState
  lastTerm : Int
  lastIndex : Int
  entries : List WEntry
deriving DecidableEq, Repr

/-- One snapshot entry as length-prefixed fields (spec-modelled). -/
def wentryEncodeLP (e : WEntry) : List Char :=
  encodeStr (printInt e.term) ++ (encodeStr (printInt e.index) ++
    (encodeStr (printInt e.commitIndex) ++ (encodeStr e.type ++ encodeStr e.data)))

/-- Read one snapshot entry (spec-modelled). -/
def wentryDecodeLP (s : List Char) : Option (WEntry × List Char) :=
  match decodeStr s with
  | none => none
  | some b1 =>
    match decodeStr b1.2 with
    | none => none
    | some b2 =>
      match decodeStr b2.2 with
      | none => none
      | some b3 =>
        match decodeStr b3.2 with
        | none => none
        | some b4 =>
          match decodeStr b4.2 with
          | none => none
          | some b5 =>
            some ({ term := parseInt b1.1, index := parseInt b2.1,
                    commitIndex := parseInt b3.1, type := b4.1, data := b5.1 }, b5.2)

theorem wentryDecodeLP_encode (e : WEntry) (rest : List Char) :
    wentryDecodeLP (wentryEncodeLP e ++ rest) = some (e, rest) := by
  unfold wentryDecodeLP wentryEncodeLP
  simp only [List.append_assoc, decodeStr_encodeStr, parseInt_printInt]

/-- Read `n` snapshot entries (spec-modelled). -/
def decodeEntriesLP : Nat → List Char → Option (List WEntry × List Char)
  | 0, s => some ([], s)
  | n + 1, s =>
    match wentryDecodeLP s with
    | none => none
    | some ev =>
      match decodeEntriesLP n ev.2 with
      | none => none
      | some pr => some (ev.1 :: pr.1, pr.2)

theorem decodeEntriesLP_encode (l : List WEntry) :
    ∀ rest, decodeEntriesLP l.length ((l.map wentryEncodeLP).flatten ++ rest) = some (l, rest) := by
  induction l with
  | nil => intro rest; simp [decodeEntriesLP]
  | cons e es ih =>
    intro rest
    simp only [List.map_cons, List.flatten_cons, List.length_cons, decodeEntriesLP,
               List.append_assoc, wentryDecodeLP_encode, ih]

/-- Snapshot.Encode (spec-modelled). -/
def wsnapshotEncode (sn : WSnapshot) : List Char :=
  wstateEncode sn.state ++ (encodeStr (printInt sn.lastTerm) ++
    (encodeStr (printInt sn.lastIndex) ++
      (encodeStr (printNat sn.entries.length) ++ (sn.entries.map wentryEncodeLP).flatten)))

/-- Snapshot decode (spec-modelled). -/
def wsnapshotDecode (s : List Char) : Option WSnapshot :=
  match wstateDecodeAux s with
  | none => none
  | some sp =>
    match decodeStr sp.2 with
    | none => none
    | some b1 =>
      match decodeStr b1.2 with
      | none => none
      | some b2 =>
        match decodeStr b2.2 with
        | none => none
        | some b3 =>
          match parseDigits b3.1 with
          | none => none
          | some cnt =>
            match decodeEntriesLP cnt b3.2 with
            | none => none
            | some ep =>
              some { state := sp.1, lastTerm := parseInt b1.1,
                     lastIndex := parseInt b2.1, entries := ep.1 }

theorem wsnapshotDecode_encode (sn : WSnapshot) :
    wsnapshotDecode (wsnapshotEncode sn) = some sn := by
  unfold wsnapshotDecode wsnapshotEncode
  simp only [List.append_assoc, wstateDecodeAux_encode, decodeStr_encodeStr,
             parseDigits_printNat, parseInt_printInt]
  rw [show (sn.entries.map wentryEncodeLP).flatten =
        (sn.entries.map wentryEncodeLP).flatten ++ [] from (List.append_nil _).symm,
      decodeEntriesLP_encode]

theorem lastCond_of (s : List Char) (d : Char) (hs : s.getLast? = some d)
    (hd : isCRLF d = false) : ∀ c, s.getLast? = some c → isCRLF c = false := by
  intro c hc
  rw [hs] at hc
  cases hc
  exact hd

theorem headCond_of (s : List Char) (d : Char) (hs : s.head? = some d)
    (hd : isCRLF d = false) : ∀ c, s.head? = some c → isCRLF c = false := by
  intro c hc
  rw [hs] at hc
  cases hc
  exact hd

/-- Counterexample to C7 as stated: the Entry whose payload ends in LF does
not round-trip — the decoder's Trim eats the trailing newline, so decode of
its encode succeeds but returns a different entry. -/
theorem C7_roundtrip_counterexample :
    wentryDecode (wentryEncode
      { term := 1, index := 1, commitIndex := 0, type := [ 'N' ], data := [ 'x', '\n' ] }) =
      some { term := 1, index := 1, commitIndex := 0, type := [ 'N' ], data := [ 'x' ] } ∧
    wentryDecode (wentryEncode
      { term := 1, index := 1, commitIndex := 0, type := [ 'N' ], data := [ 'x', '\n' ] }) ≠
      some { term := 1, index := 1, commitIndex := 0, type := [ 'N' ], data := [ 'x', '\n' ] } := by
  exact ⟨by decide, by decide⟩

/-- The claim C7, amended: Decode(Encode(e)) = e for every part_000 Entry
whose type tag is space-free and whose payload does not end in CR/LF, and for
every part_002 Message whose cmd/src/dst tokens are space-free, whose cmd
does not start with CR/LF, whose payload does not end in CR/LF and whose
numeric fields fit their unsigned widths; the spec-modelled State and
Snapshot codecs (their sources are absent from src) round-trip without side
conditions. -/
theorem C7_roundtrip_amended :
    (∀ e : WEntry, ' ' ∉ e.type →
      (∀ c, e.data.getLast? = some c → isCRLF c = false) →
      wentryDecode (wentryEncode e) = some e) ∧
    (∀ m : WMessage, ' ' ∉ m.cmd → ' ' ∉ m.src → ' ' ∉ m.dst →
      (∀ c, m.cmd.head? = some c → isCRLF c = false) →
      (∀ c, m.data.getLast? = some c → isCRLF c = false) →
      m.index < 2 ^ 64 → m.term < 2 ^ 32 →
      wmessageDecode (wmessageEncode m) = some m) ∧
    (∀ st : WState, wstateDecode (wstateEncode st) = some st) ∧
    (∀ sn : WSnapshot, wsnapshotDecode (wsnapshotEncode sn) = some sn) :=
  ⟨fun e ht hd => wentryDecode_encode e ht hd,
   fun m h1 h2 h3 h4 h5 h6 h7 => wmessageDecode_encode m h1 h2 h3 h4 h5 h6 h7,
   wstateDecode_encode,
   wsnapshotDecode_encode⟩

/-- Witness for the amended C7 at concrete values: an entry with a space in
its opaque payload, a message, a one-member state and a one-entry snapshot
all round-trip. -/
theorem C7_roundtrip_amended_witness :
    wentryDecode (wentryEncode
      { term := 1, index := 2, commitIndex := 0, type := [ 'N' ], data := [ 'x', ' ', 'y' ] }) =
      some { term := 1, index := 2, commitIndex := 0, type := [ 'N' ], data := [ 'x', ' ', 'y' ] } ∧
    wmessageDecode (wmessageEncode
      { cmd := [ 'A' ], src := [ 'a' ], dst := [ 'b' ], index := 3, term := 4, data := [ 'd' ] }) =
      some { cmd := [ 'A' ], src := [ 'a' ], dst := [ 'b' ], index := 3, term := 4, data := [ 'd' ] } ∧
    wstateDecode (wstateEncode { term := 5, voteFor := [], members := [([ 'n' ], [ 'a' ])] }) =
      some { term := 5, voteFor := [], members := [([ 'n' ], [ 'a' ])] } ∧
    wsnapshotDecode (wsnapshotEncode
      { state := { term := 5, voteFor := [], members := [] }, lastTerm := 1, lastIndex := 1,
        entries := [{ term := 1, index := 1, commitIndex := 0, type := [ 'N' ], data := [] }] }) =
      some { state := { term := 5, voteFor := [], members := [] }, lastTerm := 1, lastIndex := 1,
             entries := [{ term := 1, index := 1, commitIndex := 0, type := [ 'N' ], data := [] }] } := by
  refine ⟨C7_roundtrip_amended.1 _ (by decide)
            (lastCond_of _ 'y' (by decide) (by decide)),
          C7_roundtrip_amended.2.1 _ (by decide) (by decide) (by decide)
            (headCond_of _ 'A' (by decide) (by decide))
            (lastCond_of _ 'd' (by decide) (by decide)) (by decide) (by decide),
          C7_roundtrip_amended.2.2.1 _,
          C7_roundtrip_amended.2.2.2 _⟩

end wire
